import Mathlib

/-! Definitions -/

/-- A Go string: its exact byte sequence, each byte a number below 256. -/
abbrev GoString := List Nat

namespace utf8

def RuneError : Nat := 0xFFFD
def RuneSelf : Nat := 0x80
def MaxRune : Nat := 0x10FFFF
def UTFMax : Nat := 4
def surrogateMin : Nat := 0xD800
def surrogateMax : Nat := 0xDFFF
def rune1Max : Nat := 0x7F
def rune2Max : Nat := 0x7FF
def rune3Max : Nat := 0xFFFF
def locb : Nat := 0x80
def hicb : Nat := 0xBF
def xx : Nat := 0xF1
def as : Nat := 0xF0
def s1 : Nat := 0x02
def s2 : Nat := 0x13
def s3 : Nat := 0x03
def s4 : Nat := 0x23
def s5 : Nat := 0x34
def s6 : Nat := 0x04
def s7 : Nat := 0x44

/-- The table `first` of the Go package unicode/utf8: information about the
first byte of a UTF-8 sequence, written by ranges instead of 256 entries. -/
def first (c : Nat) : Nat :=
  if c < 0x80 then as
  else if c < 0xC2 then xx
  else if c < 0xE0 then s1
  else if c = 0xE0 then s2
  else if c < 0xED then s3
  else if c = 0xED then s4
  else if c < 0xF0 then s3
  else if c = 0xF0 then s5
  else if c < 0xF4 then s6
  else if c = 0xF4 then s7
  else xx

structure acceptRange where
  lo : Nat
  hi : Nat
deriving DecidableEq, Repr

/-- The table `acceptRanges` of unicode/utf8 (16 entries, the last 11 zero). -/
def acceptRanges (i : Nat) : acceptRange :=
  match i with
  | 0 => ⟨locb, hicb⟩
  | 1 => ⟨0xA0, hicb⟩
  | 2 => ⟨locb, 0x9F⟩
  | 3 => ⟨0x90, hicb⟩
  | 4 => ⟨locb, 0x8F⟩
  | _ => ⟨0, 0⟩

/-- One iteration of the loop of `utf8.RuneCount` at `p[i:] = c :: rest`:
the number of bytes by which `i` advances. -/
def runeCountAdvance (c : Nat) (rest : List Nat) : Nat :=
  if c < RuneSelf then 1
  else
    let x := first c
    if x = xx then 1
    else
      let size := x % 8
      if rest.length + 1 < size then 1
      else
        let accept := acceptRanges (x / 16)
        let c1 := rest.getD 0 0
        if c1 < accept.lo ∨ accept.hi < c1 then 1
        else if size = 2 then 2
        else
          let c2 := rest.getD 1 0
          if c2 < locb ∨ hicb < c2 then 1
          else if size = 3 then 3
          else
            let c3 := rest.getD 2 0
            if c3 < locb ∨ hicb < c3 then 1 else size

/-- The loop `for i := 0; i < np; { n++; ...; i += size }` of `utf8.RuneCount`,
on the remaining bytes `p[i:]`. Every iteration advances `i` by at least one,
so `len(p)` iterations suffice: the first argument bounds them. -/
def runeCountLoop : Nat → List Nat → Nat → Nat
  | 0, _, n => n
  | _ + 1, [], n => n
  | fuel + 1, c :: rest, n =>
    runeCountLoop fuel (rest.drop (runeCountAdvance c rest - 1)) (n + 1)

/-- The Go function `utf8.RuneCount`: the number of runes in `p`, erroneous and
short encodings counting as single runes of width one byte. -/
def RuneCount (p : List Nat) : Nat :=
  runeCountLoop p.length p 0

/-- The Go function `utf8.AppendRune` applied to an empty slice: the UTF-8
encoding of the code point `r`. -/
def EncodeRune (r : Nat) : List Nat :=
  if r ≤ rune1Max then [r]
  else if r ≤ rune2Max then [0xC0 + r / 64, 0x80 + r % 64]
  else if r > MaxRune ∨ (surrogateMin ≤ r ∧ r ≤ surrogateMax) then
    [0xE0 + RuneError / 4096, 0x80 + RuneError / 64 % 64, 0x80 + RuneError % 64]
  else if r ≤ rune3Max then [0xE0 + r / 4096, 0x80 + r / 64 % 64, 0x80 + r % 64]
  else [0xF0 + r / 262144, 0x80 + r / 4096 % 64, 0x80 + r / 64 % 64, 0x80 + r % 64]

end utf8

/-- The bytes of the Go string with the given code points: `string(runes)`. -/
def encodeRunes (cs : List Char) : GoString :=
  (cs.map fun c => utf8.EncodeRune c.toNat).flatten

/-- The bytes of a Go string literal. -/
def goString (s : String) : GoString := encodeRunes s.toList

namespace pwd

structure Password where
  Clear : GoString
  Hashed : GoString
deriving DecidableEq, Repr

/-- The zero value of `Password`. -/
def Password.zero : Password := ⟨[], []⟩

/-- The type `Store`. The Go map `map[uint64]Password` is an association list
in which the first binding of a key is the current one; the mutex guards every
access, so an operation is one atomic step on this state. -/
structure Store where
  pwdMap : List (Nat × Password)
  maxPwdLength : Int
deriving DecidableEq, Repr

/-- The map index expression `m[id]`: the zero value for a missing key. -/
def mapIndex (m : List (Nat × Password)) (id : Nat) : Password :=
  match m.find? (fun kv => kv.1 == id) with
  | some kv => kv.2
  | none => Password.zero

/-- The map assignment `m[id] = pwd`. -/
def mapAssign (m : List (Nat × Password)) (id : Nat) (pwd : Password) :
    List (Nat × Password) :=
  (id, pwd) :: m.filter (fun kv => kv.1 != id)

def NewStore (maxPwdLength : Int) : Store :=
  { pwdMap := [], maxPwdLength := maxPwdLength }

def Store.Put (s : Store) (id : Nat) (pwd : Password) : Store :=
  { s with pwdMap := mapAssign s.pwdMap id pwd }

def Store.Get (s : Store) (id : Nat) : Password :=
  mapIndex s.pwdMap id

/-- The method `Store.Validate`: `none` is the nil error, `some msg` the error
made by `fmt.Errorf`, whose text is kept abstract as the maximum it names. -/
def Store.Validate (s : Store) (clearText : GoString) : Option Int :=
  let strLen : Int := (utf8.RuneCount clearText : Nat)
  if strLen > s.maxPwdLength then some s.maxPwdLength else none

def IsEmpty (pwd : Password) : Bool :=
  pwd.Clear == [] && pwd.Hashed == []

end pwd

namespace utf8

def maskx : Nat := 0x3F
def mask2 : Nat := 0x1F
def mask3 : Nat := 0x0F
def mask4 : Nat := 0x07

/-- The Go function `utf8.DecodeRuneInString` (the `for i, r := range s` loop
decodes the same way): the first rune of `s` and its width in bytes, and
`(RuneError, 1)` for an erroneous or short encoding. -/
def DecodeRuneInString (s : List Nat) : Nat × Nat :=
  match s with
  | [] => (RuneError, 0)
  | s0 :: rest =>
    let x := first s0
    if x ≥ as then
      -- the mask made of the lowest bit of x: all ones for xx, zero for as
      if x % 2 = 1 then (RuneError, 1) else (s0, 1)
    else
      let sz := x % 8
      let accept := acceptRanges (x / 16)
      if rest.length + 1 < sz then (RuneError, 1)
      else
        let b1 := rest.getD 0 0
        if b1 < accept.lo ∨ accept.hi < b1 then (RuneError, 1)
        else if sz ≤ 2 then ((s0 &&& mask2) <<< 6 ||| (b1 &&& maskx), 2)
        else
          let b2 := rest.getD 1 0
          if b2 < locb ∨ hicb < b2 then (RuneError, 1)
          else if sz ≤ 3 then
            ((s0 &&& mask3) <<< 12 ||| (b1 &&& maskx) <<< 6 ||| (b2 &&& maskx), 3)
          else
            let b3 := rest.getD 2 0
            if b3 < locb ∨ hicb < b3 then (RuneError, 1)
            else
              ((s0 &&& mask4) <<< 18 ||| (b1 &&& maskx) <<< 12 ||| (b2 &&& maskx) <<< 6
                ||| (b3 &&& maskx), 4)

/-- The Go function `utf8.RuneStart`: `b` is not a continuation byte. -/
def RuneStart (b : Nat) : Bool := b &&& 0xC0 != 0x80

/-- The loop `for start--; start >= lim; start-- { if RuneStart(s[start]) { break } }`
of `utf8.DecodeLastRuneInString`; it runs at most `UTFMax` times. -/
def decodeLastScan (s : List Nat) (lim : Int) : Nat → Int → Int
  | 0, start => start
  | n + 1, start =>
    if start ≥ lim then
      if RuneStart (s.getD start.toNat 0) then start else decodeLastScan s lim n (start - 1)
    else start

/-- The Go function `utf8.DecodeLastRuneInString`: the last rune of `s` and its
width in bytes. -/
def DecodeLastRuneInString (s : List Nat) : Nat × Nat :=
  let end_ := s.length
  if end_ = 0 then (RuneError, 0)
  else
    let start : Int := end_ - 1
    let r := s.getD start.toNat 0
    if r < RuneSelf then (r, 1)
    else
      let lim : Int := if (end_ : Int) - UTFMax < 0 then 0 else end_ - UTFMax
      let start := decodeLastScan s lim UTFMax (start - 1)
      let start := if start < 0 then 0 else start
      let (r, size) := DecodeRuneInString ((s.take end_).drop start.toNat)
      if start + size ≠ end_ then (RuneError, 1) else (r, size)

end utf8

namespace unicode

def MaxLatin1 : Nat := 0xFF

/-- The Go function `unicode.IsSpace`: the Latin-1 spaces, and above Latin-1
the ranges of the table `White_Space`. -/
def IsSpace (r : Nat) : Bool :=
  if r ≤ MaxLatin1 then
    r = 0x09 ∨ r = 0x0A ∨ r = 0x0B ∨ r = 0x0C ∨ r = 0x0D ∨ r = 0x20 ∨ r = 0x85 ∨ r = 0xA0
  else
    r = 0x1680 ∨ (0x2000 ≤ r ∧ r ≤ 0x200A) ∨ (0x2028 ≤ r ∧ r ≤ 0x2029) ∨ r = 0x202F ∨
      r = 0x205F ∨ r = 0x3000

end unicode

namespace strings

/-- The Go function `strings.TrimLeftFunc`: the loop of `indexFunc(s, f, false)`
over the runes of `s`, on the remaining bytes; `""` when every rune
satisfies `f`. The first argument bounds the iterations by `len(s)`. -/
def trimLeftLoop (f : Nat → Bool) : Nat → List Nat → List Nat
  | 0, s => s
  | _ + 1, [] => []
  | fuel + 1, c :: rest =>
    let (r, size) := utf8.DecodeRuneInString (c :: rest)
    if f r then trimLeftLoop f fuel (rest.drop (size - 1)) else c :: rest

def TrimLeftFunc (s : List Nat) (f : Nat → Bool) : List Nat :=
  trimLeftLoop f s.length s

/-- The Go function `lastIndexFunc(s, f, false)`: the index of the start of the
last rune that does not satisfy `f`, `none` for -1. The loop variable `i` is the
second argument; the first bounds the iterations by `len(s)`. -/
def lastIndexLoop (s : List Nat) (f : Nat → Bool) : Nat → Nat → Option Nat
  | 0, _ => none
  | fuel + 1, i =>
    if i > 0 then
      let (r, size) := utf8.DecodeLastRuneInString (s.take i)
      let i := i - size
      if f r = false then some i else lastIndexLoop s f fuel i
    else none

/-- The Go function `strings.TrimRightFunc`. -/
def TrimRightFunc (s : List Nat) (f : Nat → Bool) : List Nat :=
  match lastIndexLoop s f s.length s.length with
  | some i =>
    if s.getD i 0 ≥ utf8.RuneSelf then
      let (_, wid) := utf8.DecodeRuneInString (s.drop i)
      s.take (i + wid)
    else s.take (i + 1)
  | none => s.take 0

def TrimFunc (s : List Nat) (f : Nat → Bool) : List Nat :=
  TrimRightFunc (TrimLeftFunc s f) f

/-- The Go function `strings.TrimSpace`: `s` without its leading and trailing
white space, as `TrimFunc(s, unicode.IsSpace)`. -/
def TrimSpace (s : List Nat) : List Nat :=
  TrimFunc s unicode.IsSpace

end strings

namespace sha512

/-- The round constants `_K` of SHA-512 (FIPS 180-4, section 4.2.3). -/
def _K : List Nat := [
    0x428a2f98d728ae22, 0x7137449123ef65cd, 0xb5c0fbcfec4d3b2f, 0xe9b5dba58189dbbc,
    0x3956c25bf348b538, 0x59f111f1b605d019, 0x923f82a4af194f9b, 0xab1c5ed5da6d8118,
    0xd807aa98a3030242, 0x12835b0145706fbe, 0x243185be4ee4b28c, 0x550c7dc3d5ffb4e2,
    0x72be5d74f27b896f, 0x80deb1fe3b1696b1, 0x9bdc06a725c71235, 0xc19bf174cf692694,
    0xe49b69c19ef14ad2, 0xefbe4786384f25e3, 0x0fc19dc68b8cd5b5, 0x240ca1cc77ac9c65,
    0x2de92c6f592b0275, 0x4a7484aa6ea6e483, 0x5cb0a9dcbd41fbd4, 0x76f988da831153b5,
    0x983e5152ee66dfab, 0xa831c66d2db43210, 0xb00327c898fb213f, 0xbf597fc7beef0ee4,
    0xc6e00bf33da88fc2, 0xd5a79147930aa725, 0x06ca6351e003826f, 0x142929670a0e6e70,
    0x27b70a8546d22ffc, 0x2e1b21385c26c926, 0x4d2c6dfc5ac42aed, 0x53380d139d95b3df,
    0x650a73548baf63de, 0x766a0abb3c77b2a8, 0x81c2c92e47edaee6, 0x92722c851482353b,
    0xa2bfe8a14cf10364, 0xa81a664bbc423001, 0xc24b8b70d0f89791, 0xc76c51a30654be30,
    0xd192e819d6ef5218, 0xd69906245565a910, 0xf40e35855771202a, 0x106aa07032bbd1b8,
    0x19a4c116b8d2d0c8, 0x1e376c085141ab53, 0x2748774cdf8eeb99, 0x34b0bcb5e19b48a8,
    0x391c0cb3c5c95a63, 0x4ed8aa4ae3418acb, 0x5b9cca4f7763e373, 0x682e6ff3d6b2b8a3,
    0x748f82ee5defb2fc, 0x78a5636f43172f60, 0x84c87814a1f0ab72, 0x8cc702081a6439ec,
    0x90befffa23631e28, 0xa4506cebde82bde9, 0xbef9a3f7b2c67915, 0xc67178f2e372532b,
    0xca273eceea26619c, 0xd186b8c721c0c207, 0xeada7dd6cde0eb1e, 0xf57d4f7fee6ed178,
    0x06f067aa72176fba, 0x0a637dc5a2c898a6, 0x113f9804bef90dae, 0x1b710b35131c471b,
    0x28db77f523047d84, 0x32caab7b40c72493, 0x3c9ebe0a15c9bebc, 0x431d67c49c100d4c,
    0x4cc5d4becb3e42b6, 0x597f299cfc657e2a, 0x5fcb6fab3ad6faec, 0x6c44198c4a475817]

/-- The initial hash value `init0` to `init7` of SHA-512 (FIPS 180-4, section 5.3.5). -/
def init0 : Nat := 0x6a09e667f3bcc908
def init1 : Nat := 0xbb67ae8584caa73b
def init2 : Nat := 0x3c6ef372fe94f82b
def init3 : Nat := 0xa54ff53a5f1d36f1
def init4 : Nat := 0x510e527fade682d1
def init5 : Nat := 0x9b05688c2b3e6c1f
def init6 : Nat := 0x1f83d9abfb41bd6b
def init7 : Nat := 0x5be0cd19137e2179

def chunk : Nat := 128

/-- The Go function `bits.RotateLeft64(x, -k)` on a 64-bit word: rotation to
the right by `k`. -/
def rotr (x k : Nat) : Nat :=
  ((x >>> k) ||| (x <<< (64 - k))) % 2 ^ 64

/-- The operator `^x` on a `uint64`. -/
def not64 (x : Nat) : Nat := (2 ^ 64 - 1) ^^^ x

/-- The big-endian `uint64` read from eight bytes. -/
def beUint64 (b : List Nat) : Nat :=
  b.foldl (fun acc x => acc * 256 + x) 0

/-- The function `binary.BigEndian.PutUint64`: the eight bytes of a `uint64`. -/
def putUint64 (v : Nat) : List Nat :=
  [v >>> 56 % 256, v >>> 48 % 256, v >>> 40 % 256, v >>> 32 % 256,
   v >>> 24 % 256, v >>> 16 % 256, v >>> 8 % 256, v % 256]

/-- The message schedule of `blockGeneric`: `w[0..15]` are the words of the
block, and `w[i] = t1 + w[i-7] + t2 + w[i-16]` for `i` from 16 to 79. -/
def schedule (p : List Nat) : List Nat :=
  let w16 := (List.range 16).map fun i => beUint64 ((p.drop (i * 8)).take 8)
  (List.range 64).foldl (fun w k =>
    let i := k + 16
    let v1 := w.getD (i - 2) 0
    let t1 := rotr v1 19 ^^^ rotr v1 61 ^^^ (v1 >>> 6)
    let v2 := w.getD (i - 15) 0
    let t2 := rotr v2 1 ^^^ rotr v2 8 ^^^ (v2 >>> 7)
    w ++ [(t1 + w.getD (i - 7) 0 + t2 + w.getD (i - 16) 0) % 2 ^ 64]) w16

structure digest where
  h0 : Nat
  h1 : Nat
  h2 : Nat
  h3 : Nat
  h4 : Nat
  h5 : Nat
  h6 : Nat
  h7 : Nat
deriving DecidableEq, Repr

/-- One round of the compression loop of `blockGeneric`. -/
def round (s : digest) (kw : Nat × Nat) : digest :=
  let ⟨a, b, c, d, e, f, g, h⟩ := s
  let t1 := (h + (rotr e 14 ^^^ rotr e 18 ^^^ rotr e 41) + ((e &&& f) ^^^ (not64 e &&& g))
    + kw.1 + kw.2) % 2 ^ 64
  let t2 := ((rotr a 28 ^^^ rotr a 34 ^^^ rotr a 39) + ((a &&& b) ^^^ (a &&& c) ^^^ (b &&& c)))
    % 2 ^ 64
  ⟨(t1 + t2) % 2 ^ 64, a, b, c, (d + t1) % 2 ^ 64, e, f, g⟩

/-- The function `blockGeneric` on one chunk of 128 bytes. -/
def block (dig : digest) (p : List Nat) : digest :=
  let r := (_K.zip (schedule p)).foldl round dig
  ⟨(dig.h0 + r.h0) % 2 ^ 64, (dig.h1 + r.h1) % 2 ^ 64, (dig.h2 + r.h2) % 2 ^ 64,
   (dig.h3 + r.h3) % 2 ^ 64, (dig.h4 + r.h4) % 2 ^ 64, (dig.h5 + r.h5) % 2 ^ 64,
   (dig.h6 + r.h6) % 2 ^ 64, (dig.h7 + r.h7) % 2 ^ 64⟩

/-- The padding that `checkSum` writes after a message of `len` bytes: the byte
0x80, zeros up to 112 modulo 128, eight zero bytes (the upper half of the
length) and the length in bits as a big-endian `uint64`. -/
def padding (len : Nat) : List Nat :=
  let t := if len % 128 < 112 then 112 - len % 128 else 128 + 112 - len % 128
  0x80 :: List.replicate (t - 1) 0 ++ List.replicate 8 0 ++ putUint64 (len * 8 % 2 ^ 64)

/-- The digest of `hasher := sha512.New(); hasher.Write(data); hasher.Sum(nil)`:
the 64 bytes of SHA-512 of `data`. -/
def Sum (data : List Nat) : List Nat :=
  let msg := data ++ padding data.length
  let d0 : digest := ⟨init0, init1, init2, init3, init4, init5, init6, init7⟩
  let d := (List.range (msg.length / chunk)).foldl
    (fun dig i => block dig ((msg.drop (i * chunk)).take chunk)) d0
  putUint64 d.h0 ++ putUint64 d.h1 ++ putUint64 d.h2 ++ putUint64 d.h3 ++
    putUint64 d.h4 ++ putUint64 d.h5 ++ putUint64 d.h6 ++ putUint64 d.h7

end sha512

namespace base64

/-- The alphabet of `base64.URLEncoding`: the byte that encodes a 6-bit value. -/
def encodeURL (v : Nat) : Nat :=
  if v < 26 then 65 + v
  else if v < 52 then 97 + (v - 26)
  else if v < 62 then 48 + (v - 52)
  else if v = 62 then 45
  else 95

/-- The padding character `=` of `base64.StdPadding`. -/
def padChar : Nat := 61

/-- The method `EncodeToString` of `base64.URLEncoding`: three bytes give four
characters, a remainder of one or two bytes is padded with `=`. -/
def EncodeToString : List Nat → List Nat
  | [] => []
  | [a] =>
    let val := a <<< 16
    [encodeURL (val >>> 18 &&& 0x3F), encodeURL (val >>> 12 &&& 0x3F), padChar, padChar]
  | [a, b] =>
    let val := a <<< 16 ||| b <<< 8
    [encodeURL (val >>> 18 &&& 0x3F), encodeURL (val >>> 12 &&& 0x3F),
      encodeURL (val >>> 6 &&& 0x3F), padChar]
  | a :: b :: c :: rest =>
    let val := a <<< 16 ||| b <<< 8 ||| c
    encodeURL (val >>> 18 &&& 0x3F) :: encodeURL (val >>> 12 &&& 0x3F) ::
      encodeURL (val >>> 6 &&& 0x3F) :: encodeURL (val &&& 0x3F) :: EncodeToString rest

end base64

namespace pwd

/-- The function `Hash`: the SHA-512 digest of the bytes of `clearText` in the
padded URL-safe base64 encoding. -/
def Hash (clearText : GoString) : GoString :=
  base64.EncodeToString (sha512.Sum clearText)

end pwd

namespace worker

/-- A buffered Go channel of `uint64`: the values it buffers (oldest first), its
capacity, and whether `close` has been called on it. -/
structure Chan where
  buf : List Nat
  cap : Nat
  closed : Bool
deriving DecidableEq, Repr

/-- A goroutine running `WorkerPool.worker`: waiting at the `range` receive,
holding a job it has received (sleeping, then calling `jobFunc`), or returned
(its deferred `wg.Done()` has run). -/
inductive WorkerState where
  | idle
  | busy (job : Nat)
  | exited
deriving DecidableEq, Repr

/-- The goroutine running `InitWorkerPool`: in the loop with `i` workers
started, at `wg.Wait()`, at `wp.workersDone <- true`, or returned. -/
inductive InitState where
  | loop (i : Nat)
  | wait
  | send
  | finished
deriving DecidableEq, Repr

/-- The caller of `Stop`: not called, at `<-wp.workersDone` (the channel is
closed), or returned. -/
inductive StopState where
  | notCalled
  | waiting
  | returned
deriving DecidableEq, Repr

/-- The type `WorkerPool` with the state of the goroutines that run its
methods. `jobFunc` is not a field: whoever runs the pool applies its handler to
the job that a step reports. `workersDone`, an unbuffered channel, is the
rendezvous of `init = send` with `stop = waiting`. -/
structure WorkerPool where
  jobChannel : Chan
  numWorkers : Int
  init : InitState
  wg : Nat
  workers : List WorkerState
  stop : StopState
deriving DecidableEq, Repr

/-- The function `NewWorkerPool` followed by `go wp.InitWorkerPool()`, as both
callers do. `make(chan uint64, buffSize)` panics for a negative `buffSize`, so
the capacity is a natural number. -/
def NewWorkerPool (numWorkers : Int) (buffSize : Nat) : WorkerPool :=
  { jobChannel := { buf := [], cap := buffSize, closed := false },
    numWorkers := numWorkers,
    init := .loop 0,
    wg := 0,
    workers := [],
    stop := .notCalled }

/-- What a call of `AddJob` does: it returns (the job is in the channel or with
a receiver), it blocks (buffer full and no receiver waiting), or it panics
(send on a closed channel). `AddJob` has no result value. -/
inductive AddJobResult where
  | returns (wp : WorkerPool)
  | blocks
  | panics
deriving DecidableEq, Repr

/-- The index of the first worker waiting at the receive. -/
def firstIdle (ws : List WorkerState) : Option Nat :=
  match ws.indexOf WorkerState.idle with
  | i => if i < ws.length then some i else none

/-- The method `AddJob`: the send `wp.jobChannel <- job`. With room in the
buffer the job is appended; with an empty buffer and a worker waiting at the
receive the job is handed to that worker; otherwise the send blocks. -/
def WorkerPool.AddJob (wp : WorkerPool) (job : Nat) : AddJobResult :=
  if wp.jobChannel.closed then .panics
  else if wp.jobChannel.buf.length < wp.jobChannel.cap then
    .returns { wp with jobChannel := { wp.jobChannel with buf := wp.jobChannel.buf ++ [job] } }
  else if wp.jobChannel.buf = [] then
    match firstIdle wp.workers with
    | some k => .returns { wp with workers := wp.workers.set k (.busy job) }
    | none => .blocks
  else .blocks

/-- The statement `close(wp.jobChannel)` of `Stop`, after which the caller
waits at `<-wp.workersDone`: `none` is the panic of closing a closed channel. -/
def WorkerPool.Stop (wp : WorkerPool) : Option WorkerPool :=
  if wp.jobChannel.closed then none
  else some { wp with jobChannel := { wp.jobChannel with closed := true }, stop := .waiting }

/-- The steps of the goroutines of the pool. -/
inductive Action where
  | spawn
  | endLoop
  | wait
  | done
  | recv (k : Nat)
  | call (k : Nat)
  | exit (k : Nat)
deriving DecidableEq, Repr

/-- One step of a goroutine of the pool; `none` when the step is not enabled.
The second component is the job on which `wp.jobFunc` is called by the step.
* `spawn`: one iteration of the loop of `InitWorkerPool`: `wg.Add(1)` and `go wp.worker(&wg)`.
* `endLoop`: the loop condition `i < wp.numWorkers` fails.
* `wait`: `wg.Wait()` returns, the counter being zero.
* `done`: `wp.workersDone <- true` meets `<-wp.workersDone` of `Stop`.
* `recv k`: worker `k` receives the oldest job of the channel.
* `call k`: worker `k` has slept and calls `wp.jobFunc(job)`.
* `exit k`: worker `k` finds the channel closed and empty, leaves the loop and runs `wg.Done()`. -/
def WorkerPool.step (wp : WorkerPool) : Action → Option (WorkerPool × Option Nat)
  | .spawn =>
    match wp.init with
    | .loop i =>
      if (i : Int) < wp.numWorkers then
        some ({ wp with init := .loop (i + 1), wg := wp.wg + 1,
                        workers := wp.workers ++ [.idle] }, none)
      else none
    | _ => none
  | .endLoop =>
    match wp.init with
    | .loop i => if (i : Int) < wp.numWorkers then none else some ({ wp with init := .wait }, none)
    | _ => none
  | .wait =>
    match wp.init with
    | .wait => if wp.wg = 0 then some ({ wp with init := .send }, none) else none
    | _ => none
  | .done =>
    match wp.init, wp.stop with
    | .send, .waiting => some ({ wp with init := .finished, stop := .returned }, none)
    | _, _ => none
  | .recv k =>
    match wp.workers[k]?, wp.jobChannel.buf with
    | some .idle, job :: rest =>
      some ({ wp with jobChannel := { wp.jobChannel with buf := rest },
                      workers := wp.workers.set k (.busy job) }, none)
    | _, _ => none
  | .call k =>
    match wp.workers[k]? with
    | some (.busy job) => some ({ wp with workers := wp.workers.set k .idle }, some job)
    | _ => none
  | .exit k =>
    match wp.workers[k]? with
    | some .idle =>
      if wp.jobChannel.closed ∧ wp.jobChannel.buf = [] then
        some ({ wp with workers := wp.workers.set k .exited, wg := wp.wg - 1 }, none)
      else none
    | _ => none

/-- A run of the goroutines of the pool: the steps of a schedule, one after the
other, the jobs on which the handler is called being dropped. -/
def WorkerPool.run (wp : WorkerPool) : List Action → Option WorkerPool
  | [] => some wp
  | a :: as =>
    match wp.step a with
    | some (wp', _) => wp'.run as
    | none => none

/-- The jobs that workers hold: received and not yet handled. -/
def busyJobs (ws : List WorkerState) : List Nat :=
  ws.filterMap fun w =>
    match w with
    | .busy job => some job
    | _ => none

/-- The test `TestWorker_AddJobsAndStop_...` for any worker count, capacity and
jobs: the pool, the jobs its loop has still to add, and the jobs on which the
handler has been called (the handler adds one to `count`). -/
structure TestState where
  wp : WorkerPool
  todo : List Nat
  calls : List Nat
deriving DecidableEq, Repr

/-- The steps of the test: its own goroutine adds the next job or calls `Stop`
(after the last job), and the goroutines of the pool step. -/
inductive TestAction where
  | add
  | stop
  | pool (a : Action)
deriving DecidableEq, Repr

def TestState.init (numWorkers : Int) (buffSize : Nat) (jobs : List Nat) : TestState :=
  { wp := NewWorkerPool numWorkers buffSize, todo := jobs, calls := [] }

/-- One step of the test; `none` when the step is not enabled: `add` while
`AddJob` blocks, `stop` before the last job is added. -/
def TestState.step (s : TestState) : TestAction → Option TestState
  | .add =>
    match s.todo with
    | job :: rest =>
      match s.wp.AddJob job with
      | .returns wp => some { s with wp := wp, todo := rest }
      | _ => none
    | [] => none
  | .stop =>
    match s.todo, s.wp.stop with
    | [], .notCalled => (s.wp.Stop).map fun wp => { s with wp := wp }
    | _, _ => none
  | .pool a =>
    match s.wp.step a with
    | some (wp, some job) => some { s with wp := wp, calls := s.calls ++ [job] }
    | some (wp, none) => some { s with wp := wp }
    | none => none

/-- A run of the test: the steps of a schedule, one after the other. -/
def TestState.run (s : TestState) : List TestAction → Option TestState
  | [] => some s
  | a :: as =>
    match s.step a with
    | some s' => s'.run as
    | none => none

/-- The steps a worker can still take without receiving another job. -/
def workerWeight : WorkerState → Nat
  | .idle => 1
  | .busy _ => 2
  | .exited => 0

/-- The number of steps a run can still take is at most this. -/
def TestState.measure (s : TestState) : Nat :=
  4 * s.todo.length + 3 * s.wp.jobChannel.buf.length
    + (s.wp.workers.map workerWeight).sum
    + (match s.wp.init with
        | .loop i => 2 * (s.wp.numWorkers.toNat - i) + 3
        | .wait => 2
        | .send => 1
        | .finished => 0)
    + (match s.wp.stop with
        | .notCalled => 2
        | .waiting => 1
        | .returned => 0)

/-- The invariant of the runs of the test on the jobs `jobs`. -/
structure TestState.Inv (jobs : List Nat) (s : TestState) : Prop where
  wg_eq : s.wp.wg = (s.wp.workers.filter fun w => w != .exited).length
  init_loop : ∀ i, s.wp.init = .loop i → s.wp.workers.length = i
  init_after : (∀ i, s.wp.init ≠ .loop i) → s.wp.numWorkers ≤ s.wp.workers.length
  init_done : s.wp.init = .send ∨ s.wp.init = .finished → s.wp.wg = 0
  exited_closed : WorkerState.exited ∈ s.wp.workers →
    s.wp.jobChannel.closed = true ∧ s.wp.jobChannel.buf = []
  closed_todo : s.wp.jobChannel.closed = true → s.todo = []
  stop_closed : s.wp.stop = .notCalled ↔ s.wp.jobChannel.closed = false
  returned_iff : s.wp.stop = .returned ↔ s.wp.init = .finished
  perm : (s.calls ++ busyJobs s.wp.workers ++ s.wp.jobChannel.buf ++ s.todo).Perm jobs

end worker

namespace strconv

/-- The digit loop of `strconv.FormatUint(i, 10)`: the decimal digits of `u`
before `acc`. A `uint64` has at most 20 digits, which bound the iterations. -/
def formatLoop : Nat → Nat → List Nat → List Nat
  | 0, u, acc => (u % 10 + 48) :: acc
  | fuel + 1, u, acc =>
    if u ≥ 10 then formatLoop fuel (u / 10) ((u % 10 + 48) :: acc) else (u + 48) :: acc

/-- The Go function `strconv.FormatUint(i, 10)`. -/
def FormatUint (i : Nat) : GoString := formatLoop 19 i []

end strconv

namespace strings

end strings

namespace fmt

/-- The bytes that `fmt.Fprintf(w, format)`, called without further arguments,
writes: the format itself when the verb character `%` does not occur in it.
`none` stands for the output on a format with a verb, which is not modelled:
the formats of this program are digests in base64 and decimal numbers. -/
def Fprintf (format : GoString) : Option GoString :=
  if 37 ∈ format then none else some format

end fmt

namespace main

def StatusCreated : Nat := 201
def StatusBadRequest : Nat := 400
/-- What a handler writes to its `http.ResponseWriter`: the status and the
body, as `fmt.Fprintf` writes it (`some []` when nothing is written). -/
structure Response where
  status : Nat
  body : Option GoString
deriving DecidableEq, Repr

/-- The type `server`, without `mux` and `stop`. The two counters are `uint64`. -/
structure server where
  counter : Nat
  processingTimeMicros : Nat
  wp : worker.WorkerPool
  pwdStore : pwd.Store
deriving DecidableEq, Repr

/-- The function `newServer`; the package variables `numWorkers`, `bufferSize`
and `maxPwdLength`, read from the environment, are its parameters. -/
def newServer (numWorkers : Int) (bufferSize : Nat) (maxPwdLength : Int) : server :=
  { counter := 0,
    processingTimeMicros := 0,
    wp := worker.NewWorkerPool numWorkers bufferSize,
    pwdStore := pwd.NewStore maxPwdLength }

/-- The decorator `trackDuration` after the handler it wraps has returned:
`atomic.AddUint64(&s.processingTimeMicros, micros)`. -/
def server.trackDuration (s : server) (micros : Nat) : server :=
  { s with processingTimeMicros := (s.processingTimeMicros + micros) % 2 ^ 64 }

/-- The method `hashPasswordWorkerFunc`, the handler of the worker pool. -/
def server.hashPasswordWorkerFunc (s : server) (id : Nat) : server :=
  let password := s.pwdStore.Get id
  let password := { password with Hashed := pwd.Hash password.Clear }
  { s with pwdStore := s.pwdStore.Put id password }

/-- How a call of `hashPasswordHandlerFunc` ends: it writes a response and
returns; or it is suspended in `AddJob` with the identifier it has taken, and
writes `StatusCreated` and the identifier when the send completes; or `AddJob`
panics. The state is the server as the call leaves it. -/
inductive HandlerResult where
  | responded (w : Response) (s : server)
  | blocked (id : Nat) (s : server)
  | panicked (s : server)
deriving DecidableEq, Repr

/-- The method `hashPasswordHandlerFunc`; `form` is `r.Form["password"]` after
`r.ParseForm()`, the empty list being `nil`. -/
def server.hashPasswordHandlerFunc (s : server) (form : List GoString) : HandlerResult :=
  match form with
  | [] => .responded ⟨StatusBadRequest, some []⟩ s
  | v :: _ =>
    let clearPwd := strings.TrimSpace v
    match s.pwdStore.Validate clearPwd with
    | some _ => .responded ⟨StatusBadRequest, some []⟩ s
    | none =>
      let id := (s.counter + 1) % 2 ^ 64
      let password : pwd.Password := { Clear := clearPwd, Hashed := [] }
      let s := { s with counter := id, pwdStore := s.pwdStore.Put id password }
      match s.wp.AddJob id with
      | .returns wp =>
        .responded ⟨StatusCreated, fmt.Fprintf (strconv.FormatUint id)⟩ { s with wp := wp }
      | .blocks => .blocked id s
      | .panics => .panicked s

structure stats where
  Total : Nat
  Average : Nat
deriving DecidableEq, Repr

/-- The method `getStatisticsHandlerFunc`: the value of type `stats` that it
marshals into the body of its response (`json.Marshal` does not fail on two
`uint64` fields). -/
def server.getStatisticsHandlerFunc (s : server) : stats :=
  let count := s.counter
  let procTime := s.processingTimeMicros
  let stat : stats := { Total := count, Average := 0 }
  if count > 0 then { stat with Average := procTime / count } else stat

/-- The running server: the `server` and the identifiers of the calls of
`hashPasswordHandlerFunc` that are suspended in `AddJob`. -/
structure RunState where
  srv : server
  parked : List Nat
deriving DecidableEq, Repr

/-- The steps of the running server: a request to `/hash` with its form values
and the duration `trackDuration` measures for it, the completion of a suspended
`AddJob`, and a step of a goroutine of the worker pool. -/
inductive Event where
  | submit (form : List GoString) (micros : Nat)
  | resume (i : Nat) (micros : Nat)
  | pool (a : worker.Action)
deriving DecidableEq, Repr

/-- One step of the running server, `none` when it is not enabled, with the
identifier that the step takes from the counter, if it takes one. -/
def RunState.step (r : RunState) : Event → Option (RunState × Option Nat)
  | .submit form micros =>
    match r.srv.hashPasswordHandlerFunc form with
    | .responded w s =>
      some ({ r with srv := s.trackDuration micros },
        if w.status = StatusCreated then some s.counter else none)
    | .blocked id s => some ({ srv := s, parked := r.parked ++ [id] }, some id)
    | .panicked s => some ({ r with srv := s }, some s.counter)
  | .resume i micros =>
    match r.parked[i]? with
    | some id =>
      match r.srv.wp.AddJob id with
      | .returns wp =>
        some ({ srv := { r.srv with wp := wp }.trackDuration micros,
                parked := r.parked.eraseIdx i }, none)
      | _ => none
    | none => none
  | .pool a =>
    match r.srv.wp.step a with
    | some (wp, some job) =>
      some ({ r with srv := { r.srv with wp := wp }.hashPasswordWorkerFunc job }, none)
    | some (wp, none) => some ({ r with srv := { r.srv with wp := wp } }, none)
    | none => none

/-- A run of the server: the state after the events and the identifiers taken,
in the order in which they were taken. -/
def RunState.run (r : RunState) : List Event → Option (RunState × List Nat)
  | [] => some (r, [])
  | e :: es =>
    match r.step e with
    | some (r', id) =>
      match r'.run es with
      | some (r'', ids) => some (r'', id.toList ++ ids)
      | none => none
    | none => none

/-- The invariant of the runs of the server with the maximum `m` in which `n`
identifiers have been taken: the counter is `n`; the entries of 0 and of the identifiers above `n`
are empty; a digest that is present is the digest of the input stored with it;
and the jobs in the channel, with the suspended calls and with the workers
are identifiers from 1 to `n`; the channel is not closed. -/
structure RunState.Inv (m : Int) (n : Nat) (r : RunState) : Prop where
  counter_eq : r.srv.counter = n
  unissued : ∀ id, id = 0 ∨ n < id → r.srv.pwdStore.Get id = pwd.Password.zero
  digest : ∀ id, (r.srv.pwdStore.Get id).Hashed = [] ∨
    (r.srv.pwdStore.Get id).Hashed = pwd.Hash (r.srv.pwdStore.Get id).Clear
  jobs : ∀ job, job ∈ r.srv.wp.jobChannel.buf ++ worker.busyJobs r.srv.wp.workers ∨
    job ∈ r.parked → 1 ≤ job ∧ job ≤ n
  open_chan : r.srv.wp.jobChannel.closed = false
  max_eq : r.srv.pwdStore.maxPwdLength = m

end main

namespace utf8

end utf8

/-! Theorems -/

set_option maxRecDepth 100000

namespace utf8

theorem first_ascii {c : Nat} (h : c < 0x80) : first c = as := by
  unfold first; rw [if_pos h]

theorem first_s1 {c : Nat} (h : 0xC2 ≤ c ∧ c ≤ 0xDF) : first c = s1 := by
  unfold first
  rw [if_neg (by omega), if_neg (by omega), if_pos (by omega)]

theorem first_s2 : first 0xE0 = s2 := by decide

theorem first_s3 {c : Nat} (h : (0xE1 ≤ c ∧ c ≤ 0xEC) ∨ (0xEE ≤ c ∧ c ≤ 0xEF)) :
    first c = s3 := by
  unfold first
  rw [if_neg (by omega), if_neg (by omega), if_neg (by omega), if_neg (by omega)]
  rcases h with h | h
  · rw [if_pos (by omega)]
  · rw [if_neg (by omega), if_neg (by omega), if_pos (by omega)]

theorem first_s4 : first 0xED = s4 := by decide

theorem first_s5 : first 0xF0 = s5 := by decide

theorem first_s6 {c : Nat} (h : 0xF1 ≤ c ∧ c ≤ 0xF3) : first c = s6 := by
  unfold first
  rw [if_neg (by omega), if_neg (by omega), if_neg (by omega), if_neg (by omega),
    if_neg (by omega), if_neg (by omega), if_neg (by omega), if_neg (by omega),
    if_pos (by omega)]

theorem first_s7 : first 0xF4 = s7 := by decide

theorem first_xx {c : Nat} (h : (0x80 ≤ c ∧ c ≤ 0xC1) ∨ 0xF5 ≤ c) : first c = xx := by
  unfold first
  rcases h with h | h
  · rw [if_neg (by omega), if_pos (by omega)]
  · rw [if_neg (by omega), if_neg (by omega), if_neg (by omega), if_neg (by omega),
      if_neg (by omega), if_neg (by omega), if_neg (by omega), if_neg (by omega),
      if_neg (by omega), if_neg (by omega)]

/-- The classes of a first byte. -/
theorem first_cases (c : Nat) :
    (c < 0x80 ∧ first c = as) ∨ (((0x80 ≤ c ∧ c ≤ 0xC1) ∨ 0xF5 ≤ c) ∧ first c = xx) ∨
    ((0xC2 ≤ c ∧ c ≤ 0xDF) ∧ first c = s1) ∨ (c = 0xE0 ∧ first c = s2) ∨
    (((0xE1 ≤ c ∧ c ≤ 0xEC) ∨ (0xEE ≤ c ∧ c ≤ 0xEF)) ∧ first c = s3) ∨
    (c = 0xED ∧ first c = s4) ∨ (c = 0xF0 ∧ first c = s5) ∨
    ((0xF1 ≤ c ∧ c ≤ 0xF3) ∧ first c = s6) ∨ (c = 0xF4 ∧ first c = s7) := by
  have hc : c < 0x80 ∨ ((0x80 ≤ c ∧ c ≤ 0xC1) ∨ 0xF5 ≤ c) ∨ (0xC2 ≤ c ∧ c ≤ 0xDF) ∨ c = 0xE0 ∨
      ((0xE1 ≤ c ∧ c ≤ 0xEC) ∨ (0xEE ≤ c ∧ c ≤ 0xEF)) ∨ c = 0xED ∨ c = 0xF0 ∨
      (0xF1 ≤ c ∧ c ≤ 0xF3) ∨ c = 0xF4 := by omega
  rcases hc with h | h | h | h | h | h | h | h | h
  · exact Or.inl ⟨h, first_ascii h⟩
  · exact Or.inr (Or.inl ⟨h, first_xx h⟩)
  · exact Or.inr (Or.inr (Or.inl ⟨h, first_s1 h⟩))
  · exact Or.inr (Or.inr (Or.inr (Or.inl ⟨h, h ▸ first_s2⟩)))
  · exact Or.inr (Or.inr (Or.inr (Or.inr (Or.inl ⟨h, first_s3 h⟩))))
  · exact Or.inr (Or.inr (Or.inr (Or.inr (Or.inr (Or.inl ⟨h, h ▸ first_s4⟩)))))
  · exact Or.inr (Or.inr (Or.inr (Or.inr (Or.inr (Or.inr (Or.inl ⟨h, h ▸ first_s5⟩))))))
  · exact Or.inr (Or.inr (Or.inr (Or.inr (Or.inr (Or.inr (Or.inr (Or.inl ⟨h, first_s6 h⟩)))))))
  · exact Or.inr (Or.inr (Or.inr (Or.inr (Or.inr (Or.inr (Or.inr (Or.inr ⟨h, h ▸ first_s7⟩)))))))

theorem runeCountAdvance_ascii {c : Nat} (h : c < 0x80) (rest : List Nat) :
    runeCountAdvance c rest = 1 := by
  unfold runeCountAdvance; rw [if_pos (by simpa [RuneSelf] using h)]

theorem runeCountAdvance_bounds (c : Nat) (rest : List Nat) :
    1 ≤ runeCountAdvance c rest ∧ runeCountAdvance c rest ≤ 4 := by
  unfold runeCountAdvance
  rcases first_cases c with h | h | h | h | h | h | h | h | h <;>
    simp only [h.2, RuneSelf, as, xx, s1, s2, s3, s4, s5, s6, s7] <;>
    norm_num <;> (repeat' split) <;> omega

theorem runeCountAdvance_le (c : Nat) (rest : List Nat) : runeCountAdvance c rest ≤ 4 :=
  (runeCountAdvance_bounds c rest).2

theorem runeCountLoop_acc (fuel : Nat) : ∀ (p : List Nat) (n : Nat),
    runeCountLoop fuel p n = runeCountLoop fuel p 0 + n := by
  induction fuel with
  | zero => intro p n; simp [runeCountLoop]
  | succ k ih =>
    intro p n
    cases p with
    | nil => simp [runeCountLoop]
    | cons c rest =>
      simp only [runeCountLoop]
      rw [ih _ (n + 1), ih _ (0 + 1)]
      omega

theorem runeCountLoop_succ (fuel : Nat) : ∀ (p : List Nat) (n : Nat), p.length ≤ fuel →
    runeCountLoop (fuel + 1) p n = runeCountLoop fuel p n := by
  induction fuel with
  | zero =>
    intro p n h
    have : p = [] := List.length_eq_zero.mp (Nat.le_zero.mp h)
    subst this; rfl
  | succ k ih =>
    intro p n h
    cases p with
    | nil => rfl
    | cons c rest =>
      have h2 : rest.length ≤ k := by simpa using h
      have h1 : (rest.drop (runeCountAdvance c rest - 1)).length ≤ k := by
        simp only [List.length_drop]; omega
      show runeCountLoop (k + 1) _ _ = runeCountLoop k _ _
      exact ih _ _ h1

/-- More iterations than bytes change nothing: `len(p)` iterations end the loop. -/
theorem runeCountLoop_fuel (p : List Nat) (n : Nat) : ∀ (fuel : Nat), p.length ≤ fuel →
    runeCountLoop fuel p n = runeCountLoop p.length p n := by
  intro fuel h
  induction fuel with
  | zero =>
    have : p = [] := List.length_eq_zero.mp (Nat.le_zero.mp h)
    subst this; rfl
  | succ k ih =>
    rcases Nat.lt_or_ge p.length (k + 1) with h1 | h1
    · rw [runeCountLoop_succ k p n (by omega)]; exact ih (by omega)
    · have : p.length = k + 1 := by omega
      rw [this]

/-- The unfolding of `RuneCount` at a non-empty slice: one rune, then the rest. -/
theorem RuneCount_cons (c : Nat) (rest : List Nat) :
    RuneCount (c :: rest) = RuneCount (rest.drop (runeCountAdvance c rest - 1)) + 1 := by
  unfold RuneCount
  simp only [List.length_cons, runeCountLoop]
  rw [runeCountLoop_acc, runeCountLoop_fuel _ _ _ (by simp)]

theorem runeCountAdvance_two {c c1 : Nat} (t : List Nat) (hc : 0xC2 ≤ c ∧ c ≤ 0xDF)
    (h1 : 0x80 ≤ c1 ∧ c1 ≤ 0xBF) : runeCountAdvance c (c1 :: t) = 2 := by
  unfold runeCountAdvance
  simp only [first_s1 hc, RuneSelf, xx, s1, locb, hicb, List.length_cons,
    List.getD_cons_zero]
  norm_num [acceptRanges, locb, hicb]
  repeat rw [if_neg (by omega)]

theorem runeCountAdvance_three {c c1 c2 : Nat} (t : List Nat) (hc : 0xE0 ≤ c ∧ c ≤ 0xEF)
    (h1 : 0x80 ≤ c1 ∧ c1 ≤ 0xBF) (hlo : c = 0xE0 → 0xA0 ≤ c1) (hhi : c = 0xED → c1 ≤ 0x9F)
    (h2 : 0x80 ≤ c2 ∧ c2 ≤ 0xBF) : runeCountAdvance c (c1 :: c2 :: t) = 3 := by
  unfold runeCountAdvance
  have hcl : c = 0xE0 ∨ ((0xE1 ≤ c ∧ c ≤ 0xEC) ∨ (0xEE ≤ c ∧ c ≤ 0xEF)) ∨ c = 0xED := by omega
  rcases hcl with h | h | h
  · subst h
    simp only [first_s2, RuneSelf, xx, s2, locb, hicb, List.length_cons,
      List.getD_cons_zero, List.getD_cons_succ]
    norm_num [acceptRanges, locb, hicb]
    repeat rw [if_neg (by omega)]
  · simp only [first_s3 h, RuneSelf, xx, s3, locb, hicb, List.length_cons,
      List.getD_cons_zero, List.getD_cons_succ]
    norm_num [acceptRanges, locb, hicb]
    repeat rw [if_neg (by omega)]
  · subst h
    simp only [first_s4, RuneSelf, xx, s4, locb, hicb, List.length_cons,
      List.getD_cons_zero, List.getD_cons_succ]
    norm_num [acceptRanges, locb, hicb]
    repeat rw [if_neg (by omega)]

theorem runeCountAdvance_four {c c1 c2 c3 : Nat} (t : List Nat) (hc : 0xF0 ≤ c ∧ c ≤ 0xF4)
    (h1 : 0x80 ≤ c1 ∧ c1 ≤ 0xBF) (hlo : c = 0xF0 → 0x90 ≤ c1) (hhi : c = 0xF4 → c1 ≤ 0x8F)
    (h2 : 0x80 ≤ c2 ∧ c2 ≤ 0xBF) (h3 : 0x80 ≤ c3 ∧ c3 ≤ 0xBF) :
    runeCountAdvance c (c1 :: c2 :: c3 :: t) = 4 := by
  unfold runeCountAdvance
  have hcl : c = 0xF0 ∨ (0xF1 ≤ c ∧ c ≤ 0xF3) ∨ c = 0xF4 := by omega
  rcases hcl with h | h | h
  · subst h
    simp only [first_s5, RuneSelf, xx, s5, locb, hicb, List.length_cons,
      List.getD_cons_zero, List.getD_cons_succ]
    norm_num [acceptRanges, locb, hicb]
    repeat rw [if_neg (by omega)]
  · simp only [first_s6 h, RuneSelf, xx, s6, locb, hicb, List.length_cons,
      List.getD_cons_zero, List.getD_cons_succ]
    norm_num [acceptRanges, locb, hicb]
    repeat rw [if_neg (by omega)]
  · subst h
    simp only [first_s7, RuneSelf, xx, s7, locb, hicb, List.length_cons,
      List.getD_cons_zero, List.getD_cons_succ]
    norm_num [acceptRanges, locb, hicb]
    repeat rw [if_neg (by omega)]

/-- The encoding of a valid code point (at most `MaxRune`, no surrogate) counts
as one rune, whatever follows it. -/
theorem RuneCount_EncodeRune_append (r : Nat) (hr : r < 0xD800 ∨ (0xE000 ≤ r ∧ r ≤ 0x10FFFF))
    (t : List Nat) : RuneCount (EncodeRune r ++ t) = RuneCount t + 1 := by
  unfold EncodeRune
  simp only [rune1Max, rune2Max, rune3Max, MaxRune, surrogateMin, surrogateMax]
  split_ifs with h1 h2 h3 h4
  · rw [List.singleton_append, RuneCount_cons, runeCountAdvance_ascii (by omega)]
    rfl
  · rw [List.cons_append, List.singleton_append, RuneCount_cons,
      runeCountAdvance_two t (by omega) (by omega)]
    rfl
  · omega
  · rw [List.cons_append, List.cons_append, List.singleton_append, RuneCount_cons,
      runeCountAdvance_three t (by omega) (by omega) (by omega) (by omega) (by omega)]
    rfl
  · rw [List.cons_append, List.cons_append, List.cons_append, List.singleton_append,
      RuneCount_cons,
      runeCountAdvance_four t (by omega) (by omega) (by omega) (by omega) (by omega) (by omega)]
    rfl

end utf8

theorem RuneCount_encodeRunes (cs : List Char) : utf8.RuneCount (encodeRunes cs) = cs.length := by
  induction cs with
  | nil => rfl
  | cons c cs ih =>
    have hv : c.toNat < 0xD800 ∨ (0xE000 ≤ c.toNat ∧ c.toNat ≤ 0x10FFFF) := by
      have := c.valid
      simp only [Char.toNat, UInt32.isValidChar, Nat.isValidChar] at *
      omega
    simp only [encodeRunes, List.map_cons, List.flatten_cons, List.length_cons] at *
    rw [utf8.RuneCount_EncodeRune_append _ hv, ih]

namespace pwd

theorem mapIndex_mapAssign_same (m : List (Nat × Password)) (id : Nat) (pw : Password) :
    mapIndex (mapAssign m id pw) id = pw := by
  simp [mapIndex, mapAssign]

theorem find?_filter_of_imp {α : Type} (p q : α → Bool) (l : List α)
    (h : ∀ x, p x = true → q x = true) : (l.filter q).find? p = l.find? p := by
  induction l with
  | nil => rfl
  | cons a l ih =>
    rw [List.filter_cons]
    by_cases hq : q a = true
    · rw [if_pos hq, List.find?_cons, List.find?_cons, ih]
    · have hp : p a = false := by
        cases hp : p a
        · rfl
        · exact absurd (h a hp) hq
      rw [if_neg hq, ih, List.find?_cons, hp]

theorem mapIndex_mapAssign_other (m : List (Nat × Password)) (id id' : Nat) (pw : Password)
    (h : id' ≠ id) : mapIndex (mapAssign m id pw) id' = mapIndex m id' := by
  unfold mapIndex mapAssign
  rw [List.find?_cons_of_neg _ (by simpa using fun e => h e.symm)]
  rw [find?_filter_of_imp]
  intro x hx
  have : x.1 = id' := by simpa using hx
  simpa [this] using h

theorem Get_Put_same (s : Store) (id : Nat) (pw : Password) : (s.Put id pw).Get id = pw :=
  mapIndex_mapAssign_same _ _ _

theorem Get_Put_other (s : Store) (id id' : Nat) (pw : Password) (h : id' ≠ id) :
    (s.Put id pw).Get id' = s.Get id' :=
  mapIndex_mapAssign_other _ _ _ _ h

/-- The store after a sequence of `Put` calls on a new store. -/
theorem Get_foldl_Put (m : Int) (puts : List (Nat × Password)) (id : Nat) :
    (puts.foldl (fun s p => s.Put p.1 p.2) (NewStore m)).Get id =
      match (puts.filter (fun p => p.1 == id)).getLast? with
      | some p => p.2
      | none => Password.zero := by
  induction puts using List.reverseRecOn with
  | nil => rfl
  | append_singleton l a ih =>
    rw [List.foldl_append, List.filter_append]
    simp only [List.foldl_cons, List.foldl_nil]
    by_cases h : a.1 = id
    · subst h
      simp [Get_Put_same, List.filter_cons]
    · rw [Get_Put_other _ _ _ _ (fun e => h e.symm), ih]
      simp [List.filter_cons, h]

/-- C1: the Store is a total map with an empty default. For every sequence of
`Put` calls on a store made by `NewStore` and every identifier, `Get` returns
the entry of the most recent `Put` on that identifier, and the empty entry, for
which `IsEmpty` is true, when there was none; on any store a `Put` overwrites
the entry of its identifier and leaves the entries of all others as they were. -/
theorem Store_Get_after_Puts (m : Int) (puts : List (Nat × Password)) (id : Nat) :
    ((puts.foldl (fun s p => s.Put p.1 p.2) (NewStore m)).Get id =
      match (puts.filter (fun p => p.1 == id)).getLast? with
      | some p => p.2
      | none => Password.zero) ∧
    IsEmpty Password.zero = true ∧
    (∀ (s : Store) (pw : Password), (s.Put id pw).Get id = pw) ∧
    (∀ (s : Store) (id' : Nat) (pw : Password), id' ≠ id → (s.Put id' pw).Get id = s.Get id) :=
  ⟨Get_foldl_Put m puts id, rfl, fun s pw => Get_Put_same s id pw,
    fun s id' pw h => Get_Put_other s id' id pw (fun e => h e.symm)⟩

/-- The tests of `Put` and `Get` in password_test.go, on a new store. -/
theorem Store_tests :
    (((NewStore 64).Put 1 ⟨goString "aPassword", []⟩).Get 1).Clear = goString "aPassword" ∧
    IsEmpty (((NewStore 64).Put 1 ⟨goString "aPassword", []⟩).Get 2) = true := by
  decide

theorem Validate_isSome_iff (s : Store) (clearText : GoString) :
    (s.Validate clearText).isSome = true ↔ s.maxPwdLength < (utf8.RuneCount clearText : Nat) := by
  unfold Store.Validate
  simp only [gt_iff_lt]
  split <;> simp_all

/-- C2: `Validate` returns an error exactly when the length in code points is
greater than the maximum of the store. For every store and every byte sequence
the error is returned if and only if `utf8.RuneCount` exceeds the maximum; on
the UTF-8 encoding of a sequence of code points that count is the number of
code points, so a string of exactly `m` characters is accepted, one of `m + 1`
characters is rejected, and a string of at most `m` characters is accepted
however many bytes encode it. -/
theorem Validate_error_iff (s : Store) :
    (∀ clearText : GoString,
      (s.Validate clearText).isSome = true ↔ s.maxPwdLength < (utf8.RuneCount clearText : Nat)) ∧
    (∀ cs : List Char,
      (s.Validate (encodeRunes cs)).isSome = true ↔ s.maxPwdLength < (cs.length : Nat)) ∧
    (∀ cs : List Char, (cs.length : Int) = s.maxPwdLength → s.Validate (encodeRunes cs) = none) ∧
    (∀ cs : List Char, (cs.length : Int) = s.maxPwdLength + 1 →
      (s.Validate (encodeRunes cs)).isSome = true) ∧
    (∀ cs : List Char, (cs.length : Int) ≤ s.maxPwdLength →
      s.maxPwdLength < ((encodeRunes cs).length : Nat) → s.Validate (encodeRunes cs) = none) := by
  have h2 : ∀ cs : List Char,
      (s.Validate (encodeRunes cs)).isSome = true ↔ s.maxPwdLength < (cs.length : Nat) := by
    intro cs
    rw [Validate_isSome_iff, RuneCount_encodeRunes]
  have h3 : ∀ cs : List Char, (cs.length : Int) ≤ s.maxPwdLength →
      s.Validate (encodeRunes cs) = none := by
    intro cs h
    cases hv : s.Validate (encodeRunes cs) with
    | none => rfl
    | some e =>
      have := (h2 cs).mp (by rw [hv]; rfl)
      omega
  refine ⟨Validate_isSome_iff s, h2, fun cs h => h3 cs (by omega), fun cs h => ?_,
    fun cs h _ => h3 cs h⟩
  exact (h2 cs).mpr (by omega)

/-- The tests of `Validate` in password_test.go on `NewStore(64)`: 66
characters are rejected and 64 are accepted; and 64 characters of two bytes
each, 128 bytes, are accepted. -/
theorem Validate_tests :
    ((NewStore 64).Validate (goString
      "angryMonkeyangryMonkeyangryMonkeyangryMonkeyangryMonkeyangryMonkey")).isSome = true ∧
    (NewStore 64).Validate (goString
      "angryMonkeyangryMonkeyangryMonkeyangryMonkeyangryMonkeyangryMonk") = none ∧
    (encodeRunes (List.replicate 64 'é')).length = 128 ∧
    (NewStore 64).Validate (encodeRunes (List.replicate 64 'é')) = none := by
  decide

end pwd

namespace worker

theorem set_decomp {α : Type} (l : List α) (k : Nat) (w w' : α) (h : l[k]? = some w) :
    ∃ l1 l2, l = l1 ++ w :: l2 ∧ l.set k w' = l1 ++ w' :: l2 ∧ l1.length = k := by
  induction l generalizing k with
  | nil => simp at h
  | cons a l ih =>
    cases k with
    | zero =>
      simp at h
      subst h
      exact ⟨[], l, rfl, rfl, rfl⟩
    | succ k =>
      simp at h
      obtain ⟨l1, l2, h1, h2, h3⟩ := ih k h
      refine ⟨a :: l1, l2, ?_, ?_, ?_⟩
      · simp [h1]
      · simp [h2]
      · simp [h3]

theorem firstIdle_some {ws : List WorkerState} {k : Nat} (h : firstIdle ws = some k) :
    ws[k]? = some WorkerState.idle := by
  unfold firstIdle at h
  simp only at h
  split at h
  · rename_i hlt
    simp only [Option.some.injEq] at h
    subst h
    rw [List.getElem?_eq_getElem hlt]
    simp
  · simp at h

theorem firstIdle_of_mem {ws : List WorkerState} (h : WorkerState.idle ∈ ws) :
    ∃ k, firstIdle ws = some k := by
  unfold firstIdle
  simp only
  rw [if_pos (List.indexOf_lt_length.mpr h)]
  exact ⟨_, rfl⟩

theorem Inv_init (W : Int) (cap : Nat) (jobs : List Nat) :
    (TestState.init W cap jobs).Inv jobs := by
  constructor <;> simp [TestState.init, NewWorkerPool, busyJobs]

theorem busyJobs_append (l1 l2 : List WorkerState) :
    busyJobs (l1 ++ l2) = busyJobs l1 ++ busyJobs l2 := by
  simp [busyJobs, List.filterMap_append]

theorem busyJobs_cons_idle (l : List WorkerState) : busyJobs (.idle :: l) = busyJobs l := by
  simp [busyJobs, List.filterMap_cons]

theorem busyJobs_cons_exited (l : List WorkerState) : busyJobs (.exited :: l) = busyJobs l := by
  simp [busyJobs, List.filterMap_cons]

theorem busyJobs_cons_busy (j : Nat) (l : List WorkerState) :
    busyJobs (.busy j :: l) = j :: busyJobs l := by
  simp [busyJobs, List.filterMap_cons]

/-- The effect of `AddJob` when it returns. -/
theorem AddJob_returns {wp wp' : WorkerPool} {job : Nat} (h : wp.AddJob job = .returns wp') :
    wp.jobChannel.closed = false ∧
    ((wp' = { wp with jobChannel := { wp.jobChannel with buf := wp.jobChannel.buf ++ [job] } } ∧
        wp.jobChannel.buf.length < wp.jobChannel.cap) ∨
     (∃ k, wp.workers[k]? = some .idle ∧ wp.jobChannel.buf = [] ∧
        wp' = { wp with workers := wp.workers.set k (.busy job) })) := by
  unfold WorkerPool.AddJob at h
  split at h
  · simp at h
  · rename_i hc
    refine ⟨by simpa using hc, ?_⟩
    split at h
    · rename_i hlt
      simp only [AddJobResult.returns.injEq] at h
      exact Or.inl ⟨h.symm, hlt⟩
    · split at h
      · rename_i hb
        split at h
        · rename_i k hk
          simp only [AddJobResult.returns.injEq] at h
          exact Or.inr ⟨k, firstIdle_some hk, hb, h.symm⟩
        · simp at h
      · simp at h

theorem Inv_add {jobs : List Nat} {s s' : TestState} (hinv : s.Inv jobs)
    (h : s.step .add = some s') : s'.Inv jobs := by
  obtain ⟨h1, h2, h3, h4, h5, h6, h7, h8, h9⟩ := hinv
  unfold TestState.step at h
  simp only at h
  split at h
  · rename_i job rest htodo
    split at h
    · rename_i wp' hadd
      simp only [Option.some.injEq] at h
      subst h
      obtain ⟨hc, hcase⟩ := AddJob_returns hadd
      rcases hcase with ⟨hwp, _⟩ | ⟨k, hk, hb, hwp⟩
      · subst hwp
        refine ⟨h1, h2, h3, h4, ?_, ?_, h7, h8, ?_⟩
        · intro hex
          have := (h5 hex).1
          simp [hc] at this
        · intro hcl
          simp [hc] at hcl
        · simp only [htodo] at h9
          simpa using h9
      · subst hwp
        obtain ⟨l1, l2, e1, e2, _⟩ := set_decomp _ k _ (.busy job) hk
        have hne : WorkerState.exited ∉ s.wp.workers := fun hex => by
          have := (h5 hex).1
          simp [hc] at this
        refine ⟨?_, ?_, ?_, h4, ?_, ?_, h7, h8, ?_⟩
        · simp only [e2]
          rw [h1, e1]
          simp [List.filter_append, List.filter_cons]
        · intro i hi
          simp only [List.length_set]
          exact h2 i hi
        · intro hi
          simp only [List.length_set]
          exact h3 hi
        · intro hex
          simp only [e2] at hex
          rw [e1] at hne
          simp at hex hne
          tauto
        · intro hcl
          simp [hc] at hcl
        · simp only [e2, hb]
          rw [e1, htodo, hb] at h9
          simp only [busyJobs_append, busyJobs_cons_idle, busyJobs_cons_busy] at h9 ⊢
          refine List.Perm.trans ?_ h9
          rw [List.perm_iff_count]
          intro a
          simp only [List.count_append, List.count_cons, List.count_nil]
          omega
    · simp at h
  · simp at h

theorem Inv_stop {jobs : List Nat} {s s' : TestState} (hinv : s.Inv jobs)
    (h : s.step .stop = some s') : s'.Inv jobs := by
  obtain ⟨h1, h2, h3, h4, h5, h6, h7, h8, h9⟩ := hinv
  unfold TestState.step at h
  simp only at h
  split at h
  · rename_i htodo hstop
    unfold WorkerPool.Stop at h
    split at h
    · simp at h
    · rename_i hc
      simp only [Option.map_some', Option.some.injEq] at h
      subst h
      have hfin : s.wp.init ≠ .finished := fun hf => by
        have := h8.mpr hf
        rw [hstop] at this
        cases this
      refine ⟨h1, h2, h3, h4, ?_, fun _ => htodo, ?_, ?_, h9⟩
      · intro hex
        exact absurd (h5 hex).1 hc
      · simp
      · simp only []
        constructor
        · intro hh; cases hh
        · intro hh; exact absurd hh hfin
  · simp at h

theorem Inv_pool {jobs : List Nat} {s s' : TestState} (a : Action) (hinv : s.Inv jobs)
    (h : s.step (.pool a) = some s') : s'.Inv jobs := by
  obtain ⟨h1, h2, h3, h4, h5, h6, h7, h8, h9⟩ := hinv
  cases a with
  | spawn =>
    simp only [TestState.step, WorkerPool.step] at h
    split at h
    · rename_i wp' job hst
      split at hst
      · rename_i i hi
        split at hst <;> simp at hst
      · simp at hst
    · rename_i wp' hst
      split at hst
      · rename_i i hi
        split at hst
        · simp only [Option.some.injEq, Prod.mk.injEq, and_true] at hst h
          subst hst
          subst h
          have hfin : s.wp.stop ≠ .returned := fun hf => by
            have := h8.mp hf
            rw [hi] at this
            cases this
          refine ⟨?_, ?_, ?_, ?_, ?_, h6, h7, ?_, ?_⟩
          · simp [List.filter_append, h1]
          · intro j hj
            simp only [InitState.loop.injEq] at hj
            simp [h2 i hi, hj]
          · intro hall
            exact absurd rfl (hall (i + 1))
          · intro hh
            rcases hh with hh | hh <;> cases hh
          · intro hex
            simp only [List.mem_append, List.mem_singleton] at hex
            rcases hex with hex | hex
            · exact h5 hex
            · cases hex
          · constructor
            · intro hh; exact absurd hh hfin
            · intro hh; cases hh
          · simpa [busyJobs_append, busyJobs_cons_idle, busyJobs] using h9
        · simp at hst
      · simp at hst
    · simp at h
  | endLoop =>
    simp only [TestState.step, WorkerPool.step] at h
    split at h
    · rename_i wp' job hst
      split at hst
      · split at hst <;> simp at hst
      · simp at hst
    · rename_i wp' hst
      split at hst
      · rename_i i hi
        split at hst
        · simp at hst
        · rename_i hlt
          simp only [Option.some.injEq, Prod.mk.injEq, and_true] at hst h
          subst hst
          subst h
          have hfin : s.wp.stop ≠ .returned := fun hf => by
            have := h8.mp hf
            rw [hi] at this
            cases this
          refine ⟨h1, ?_, ?_, ?_, h5, h6, h7, ?_, h9⟩
          · intro j hj
            cases hj
          · intro _
            simp only [h2 i hi]
            omega
          · intro hh
            rcases hh with hh | hh <;> cases hh
          · constructor
            · intro hh; exact absurd hh hfin
            · intro hh; cases hh
      · simp at hst
    · simp at h
  | wait =>
    simp only [TestState.step, WorkerPool.step] at h
    split at h
    · rename_i wp' job hst
      split at hst
      · split at hst <;> simp at hst
      · simp at hst
    · rename_i wp' hst
      split at hst
      · rename_i hi
        split at hst
        · rename_i hwg
          simp only [Option.some.injEq, Prod.mk.injEq, and_true] at hst h
          subst hst
          subst h
          have hfin : s.wp.stop ≠ .returned := fun hf => by
            have := h8.mp hf
            rw [hi] at this
            cases this
          refine ⟨h1, ?_, ?_, fun _ => hwg, h5, h6, h7, ?_, h9⟩
          · intro j hj
            cases hj
          · intro _
            exact h3 (fun j hj => by rw [hi] at hj; cases hj)
          · constructor
            · intro hh; exact absurd hh hfin
            · intro hh; cases hh
        · simp at hst
      · simp at hst
    · simp at h
  | done =>
    simp only [TestState.step, WorkerPool.step] at h
    split at h
    · rename_i wp' job hst
      split at hst <;> simp at hst
    · rename_i wp' hst
      split at hst
      · rename_i hi hs
        simp only [Option.some.injEq, Prod.mk.injEq, and_true] at hst h
        subst hst
        subst h
        refine ⟨h1, ?_, ?_, fun _ => h4 (Or.inl hi), h5, h6, ?_, ?_, h9⟩
        · intro j hj
          cases hj
        · intro _
          exact h3 (fun j hj => by rw [hi] at hj; cases hj)
        · constructor
          · intro hh; cases hh
          · intro hh
            have := h7.mpr hh
            rw [hs] at this
            cases this
        · simp
      · simp at hst
    · simp at h
  | recv k =>
    simp only [TestState.step, WorkerPool.step] at h
    split at h
    · rename_i wp' job hst
      split at hst <;> simp at hst
    · rename_i wp' hst
      split at hst
      · rename_i job rest hk hb
        simp only [Option.some.injEq, Prod.mk.injEq, and_true] at hst h
        subst hst
        subst h
        obtain ⟨l1, l2, e1, e2, _⟩ := set_decomp _ k _ (.busy job) hk
        have hne : WorkerState.exited ∉ s.wp.workers := fun hex => by
          have := (h5 hex).2
          rw [hb] at this
          cases this
        refine ⟨?_, ?_, ?_, h4, ?_, h6, h7, h8, ?_⟩
        · simp only [e2]
          rw [h1, e1]
          simp [List.filter_append, List.filter_cons]
        · intro i hi
          simp only [List.length_set]
          exact h2 i hi
        · intro hi
          simp only [List.length_set]
          exact h3 hi
        · intro hex
          simp only [e2] at hex
          rw [e1] at hne
          simp at hex hne
          tauto
        · simp only [e2]
          rw [e1, hb] at h9
          simp only [busyJobs_append, busyJobs_cons_idle, busyJobs_cons_busy] at h9 ⊢
          refine List.Perm.trans ?_ h9
          rw [List.perm_iff_count]
          intro a
          simp only [List.count_append, List.count_cons, List.count_nil]
          omega
      · simp at hst
    · simp at h
  | call k =>
    simp only [TestState.step, WorkerPool.step] at h
    split at h
    · rename_i wp' job hst
      split at hst
      · rename_i job' hk
        simp only [Option.some.injEq, Prod.mk.injEq] at hst h
        obtain ⟨hst1, hst2⟩ := hst
        subst hst1
        subst hst2
        subst h
        obtain ⟨l1, l2, e1, e2, _⟩ := set_decomp _ k _ .idle hk
        refine ⟨?_, ?_, ?_, h4, ?_, h6, h7, h8, ?_⟩
        · simp only [e2]
          rw [h1, e1]
          simp [List.filter_append, List.filter_cons]
        · intro i hi
          simp only [List.length_set]
          exact h2 i hi
        · intro hi
          simp only [List.length_set]
          exact h3 hi
        · intro hex
          apply h5
          simp only [e2] at hex
          rw [e1]
          simp at hex ⊢
          tauto
        · simp only [e2]
          rw [e1] at h9
          simp only [busyJobs_append, busyJobs_cons_idle, busyJobs_cons_busy] at h9 ⊢
          refine List.Perm.trans ?_ h9
          rw [List.perm_iff_count]
          intro a
          simp only [List.count_append, List.count_cons, List.count_nil]
          omega
      · simp at hst
    · rename_i wp' hst
      split at hst <;> simp at hst
    · simp at h
  | exit k =>
    simp only [TestState.step, WorkerPool.step] at h
    split at h
    · rename_i wp' job hst
      split at hst
      · split at hst <;> simp at hst
      · simp at hst
    · rename_i wp' hst
      split at hst
      · rename_i hk
        split at hst
        · rename_i hcb
          simp only [Option.some.injEq, Prod.mk.injEq, and_true] at hst h
          subst hst
          subst h
          obtain ⟨l1, l2, e1, e2, _⟩ := set_decomp _ k _ .exited hk
          have hwg : s.wp.wg = (l1.filter fun w => w != .exited).length +
              ((l2.filter fun w => w != .exited).length + 1) := by
            rw [h1, e1]
            simp [List.filter_append, List.filter_cons]
          refine ⟨?_, ?_, ?_, ?_, fun _ => hcb, h6, h7, h8, ?_⟩
          · simp only [e2]
            rw [hwg]
            simp [List.filter_append, List.filter_cons]
          · intro i hi
            simp only [List.length_set]
            exact h2 i hi
          · intro hi
            simp only [List.length_set]
            exact h3 hi
          · intro hi
            have := h4 hi
            simp only [this]
          · simp only [e2]
            rw [e1] at h9
            simp only [busyJobs_append, busyJobs_cons_idle, busyJobs_cons_exited] at h9 ⊢
            exact h9
        · simp at hst
      · simp at hst
    · simp at h

/-- Every step of the test keeps the invariant. -/
theorem Inv_step {jobs : List Nat} {s s' : TestState} (a : TestAction) (hinv : s.Inv jobs)
    (h : s.step a = some s') : s'.Inv jobs := by
  cases a with
  | add => exact Inv_add hinv h
  | stop => exact Inv_stop hinv h
  | pool a => exact Inv_pool a hinv h

/-- Every state that a run of the test reaches satisfies the invariant. -/
theorem Inv_run {jobs : List Nat} (acts : List TestAction) :
    ∀ {s s' : TestState}, s.Inv jobs → s.run acts = some s' → s'.Inv jobs := by
  induction acts with
  | nil =>
    intro s s' hinv h
    simp only [TestState.run, Option.some.injEq] at h
    exact h ▸ hinv
  | cons a as ih =>
    intro s s' hinv h
    simp only [TestState.run] at h
    split at h
    · rename_i s1 hs1
      exact ih (Inv_step a hinv hs1) h
    · simp at h

theorem pool_step_numWorkers {wp wp' : WorkerPool} {a : Action} {o : Option Nat}
    (h : wp.step a = some (wp', o)) : wp'.numWorkers = wp.numWorkers := by
  cases a <;> simp only [WorkerPool.step] at h <;>
    (repeat' split at h) <;> simp at h <;> (try obtain ⟨h, _⟩ := h) <;> subst h <;> rfl

theorem step_numWorkers {s s' : TestState} {a : TestAction} (h : s.step a = some s') :
    s'.wp.numWorkers = s.wp.numWorkers := by
  cases a with
  | add =>
    simp only [TestState.step] at h
    split at h
    · split at h
      · rename_i wp' hadd
        simp only [Option.some.injEq] at h
        subst h
        obtain ⟨_, hcase⟩ := AddJob_returns hadd
        rcases hcase with ⟨hwp, _⟩ | ⟨k, _, _, hwp⟩ <;> subst hwp <;> rfl
      · simp at h
    · simp at h
  | stop =>
    simp only [TestState.step] at h
    split at h
    · unfold WorkerPool.Stop at h
      split at h
      · simp at h
      · simp only [Option.map_some', Option.some.injEq] at h
        subst h
        rfl
    · simp at h
  | pool a =>
    simp only [TestState.step] at h
    split at h
    · rename_i wp' job hst
      simp only [Option.some.injEq] at h
      subst h
      exact pool_step_numWorkers hst
    · rename_i wp' hst
      simp only [Option.some.injEq] at h
      subst h
      exact pool_step_numWorkers hst
    · simp at h

theorem run_numWorkers (acts : List TestAction) :
    ∀ {s s' : TestState}, s.run acts = some s' → s'.wp.numWorkers = s.wp.numWorkers := by
  induction acts with
  | nil =>
    intro s s' h
    simp only [TestState.run, Option.some.injEq] at h
    rw [h]
  | cons a as ih =>
    intro s s' h
    simp only [TestState.run] at h
    split at h
    · rename_i s1 hs1
      rw [ih h, step_numWorkers hs1]
    · simp at h

theorem busyJobs_eq_nil {ws : List WorkerState} (h : ∀ w ∈ ws, w = WorkerState.exited) :
    busyJobs ws = [] := by
  induction ws with
  | nil => rfl
  | cons w ws ih =>
    have hw := h w (List.mem_cons_self _ _)
    subst hw
    rw [busyJobs_cons_exited]
    exact ih (fun w hw => h w (List.mem_cons_of_mem _ hw))

/-- Safety: when `Stop` has returned, the handler has been called on every job
that was to be added, once for each. -/
theorem Inv_returned {jobs : List Nat} {s : TestState} (hinv : s.Inv jobs)
    (hW : 1 ≤ s.wp.numWorkers) (hret : s.wp.stop = .returned) : s.calls.Perm jobs := by
  obtain ⟨h1, h2, h3, h4, h5, h6, h7, h8, h9⟩ := hinv
  have hfin := h8.mp hret
  have hwg := h4 (Or.inr hfin)
  have hall : ∀ w ∈ s.wp.workers, w = WorkerState.exited := by
    intro w hw
    by_contra hne
    have : w ∈ s.wp.workers.filter fun w => w != .exited := by
      simp [List.mem_filter, hw, hne]
    rw [hwg] at h1
    rw [List.length_eq_zero.mp h1.symm] at this
    cases this
  have hlen : 1 ≤ s.wp.workers.length := by
    have := h3 (fun i hi => by rw [hfin] at hi; cases hi)
    omega
  have hex : WorkerState.exited ∈ s.wp.workers := by
    cases hws : s.wp.workers with
    | nil => rw [hws] at hlen; simp at hlen
    | cons w ws =>
      have := hall w (by rw [hws]; exact List.mem_cons_self _ _)
      rw [this]
      exact List.mem_cons_self _ _
  obtain ⟨hc, hb⟩ := h5 hex
  rw [busyJobs_eq_nil hall, hb, h6 hc] at h9
  simpa using h9

theorem workers_all_idle {ws : List WorkerState}
    (hb : ¬ ∃ job, WorkerState.busy job ∈ ws) (he : WorkerState.exited ∉ ws) :
    ∀ w ∈ ws, w = WorkerState.idle := by
  intro w hw
  cases w with
  | idle => rfl
  | busy job => exact absurd ⟨job, hw⟩ hb
  | exited => exact absurd hw he

theorem head_idle {ws : List WorkerState} (hall : ∀ w ∈ ws, w = WorkerState.idle)
    (hlen : 1 ≤ ws.length) : ws[0]? = some WorkerState.idle := by
  cases ws with
  | nil => simp at hlen
  | cons w ws =>
    have := hall w (List.mem_cons_self _ _)
    simp [this]

/-- Progress: with at least one worker, a run of the test in which `Stop` has
not returned can take a step. -/
theorem Inv_progress {jobs : List Nat} {s : TestState} (hinv : s.Inv jobs)
    (hW : 1 ≤ s.wp.numWorkers) (hret : s.wp.stop ≠ .returned) :
    ∃ a, (s.step a).isSome = true := by
  obtain ⟨h1, h2, h3, h4, h5, h6, h7, h8, h9⟩ := hinv
  by_cases hloop : ∃ i, s.wp.init = .loop i
  · obtain ⟨i, hi⟩ := hloop
    by_cases hlt : (i : Int) < s.wp.numWorkers
    · exact ⟨.pool .spawn, by simp [TestState.step, WorkerPool.step, hi, hlt]⟩
    · exact ⟨.pool .endLoop, by simp [TestState.step, WorkerPool.step, hi, hlt]⟩
  · have hnl : ∀ i, s.wp.init ≠ .loop i := fun i hi => hloop ⟨i, hi⟩
    have hlen : 1 ≤ s.wp.workers.length := by
      have := h3 hnl
      omega
    by_cases hb : ∃ job, WorkerState.busy job ∈ s.wp.workers
    · obtain ⟨job, hjob⟩ := hb
      obtain ⟨k, hk⟩ := List.getElem?_of_mem hjob
      exact ⟨.pool (.call k), by simp [TestState.step, WorkerPool.step, hk]⟩
    · cases hbuf : s.wp.jobChannel.buf with
      | cons job rest =>
        have he : WorkerState.exited ∉ s.wp.workers := fun hex => by
          have := (h5 hex).2
          rw [hbuf] at this
          cases this
        have h0 := head_idle (workers_all_idle hb he) hlen
        exact ⟨.pool (.recv 0), by simp [TestState.step, WorkerPool.step, h0, hbuf]⟩
      | nil =>
        cases htodo : s.todo with
        | cons job rest =>
          have hc : s.wp.jobChannel.closed = false := by
            cases hcl : s.wp.jobChannel.closed with
            | false => rfl
            | true =>
              have := h6 hcl
              rw [htodo] at this
              cases this
          have he : WorkerState.exited ∉ s.wp.workers := fun hex => by
            have := (h5 hex).1
            rw [hc] at this
            cases this
          have hidle : WorkerState.idle ∈ s.wp.workers := by
            have h0 := head_idle (workers_all_idle hb he) hlen
            exact List.getElem?_mem h0
          obtain ⟨k, hk⟩ := firstIdle_of_mem hidle
          refine ⟨.add, ?_⟩
          simp only [TestState.step, htodo, WorkerPool.AddJob, hc, hbuf, hk]
          by_cases hcap : 0 < s.wp.jobChannel.cap <;> simp [hcap]
        | nil =>
          cases hstop : s.wp.stop with
          | notCalled =>
            have hc := h7.mp hstop
            exact ⟨.stop, by simp [TestState.step, htodo, hstop, WorkerPool.Stop, hc]⟩
          | returned => exact absurd hstop hret
          | waiting =>
            have hc : s.wp.jobChannel.closed = true := by
              cases hcl : s.wp.jobChannel.closed with
              | true => rfl
              | false =>
                have := h7.mpr hcl
                rw [hstop] at this
                cases this
            by_cases hidle : WorkerState.idle ∈ s.wp.workers
            · obtain ⟨k, hk⟩ := List.getElem?_of_mem hidle
              exact ⟨.pool (.exit k), by simp [TestState.step, WorkerPool.step, hk, hc, hbuf]⟩
            · have hwg : s.wp.wg = 0 := by
                rw [h1, List.length_eq_zero, List.filter_eq_nil_iff]
                intro w hw
                cases w with
                | idle => exact absurd hw hidle
                | busy job => exact absurd ⟨job, hw⟩ hb
                | exited => simp
              cases hinit : s.wp.init with
              | loop i => exact absurd hinit (hnl i)
              | wait => exact ⟨.pool .wait, by simp [TestState.step, WorkerPool.step, hinit, hwg]⟩
              | send =>
                exact ⟨.pool .done, by simp [TestState.step, WorkerPool.step, hinit, hstop]⟩
              | finished =>
                have := h8.mpr hinit
                rw [hstop] at this
                cases this

/-- The weight of a worker in `TestState.measure`. -/
theorem measure_workers_set {ws : List WorkerState} {k : Nat} {w : WorkerState}
    (w' : WorkerState) (f : WorkerState → Nat) (hk : ws[k]? = some w) :
    ((ws.set k w').map f).sum + f w = (ws.map f).sum + f w' := by
  obtain ⟨l1, l2, e1, e2, _⟩ := set_decomp ws k w w' hk
  rw [e2]
  conv_rhs => rw [e1]
  simp only [List.map_append, List.map_cons, List.sum_append, List.sum_cons]
  omega

theorem measure_pool {s s' : TestState} (a : Action) (h : s.step (.pool a) = some s') :
    s'.measure < s.measure := by
  cases a with
  | spawn =>
    simp only [TestState.step, WorkerPool.step] at h
    split at h
    · rename_i wp' job hst
      split at hst
      · split at hst <;> simp at hst
      · simp at hst
    · rename_i wp' hst
      split at hst
      · rename_i i hi
        split at hst
        · rename_i hlt
          simp only [Option.some.injEq, Prod.mk.injEq, and_true] at hst h
          subst hst
          subst h
          simp only [TestState.measure, hi, List.map_append, List.sum_append, List.map_cons,
            List.map_nil, List.sum_cons, List.sum_nil, workerWeight]
          omega
        · simp at hst
      · simp at hst
    · simp at h
  | endLoop =>
    simp only [TestState.step, WorkerPool.step] at h
    split at h
    · rename_i wp' job hst
      split at hst
      · split at hst <;> simp at hst
      · simp at hst
    · rename_i wp' hst
      split at hst
      · rename_i i hi
        split at hst
        · simp at hst
        · simp only [Option.some.injEq, Prod.mk.injEq, and_true] at hst h
          subst hst
          subst h
          simp only [TestState.measure, hi]
          omega
      · simp at hst
    · simp at h
  | wait =>
    simp only [TestState.step, WorkerPool.step] at h
    split at h
    · rename_i wp' job hst
      split at hst
      · split at hst <;> simp at hst
      · simp at hst
    · rename_i wp' hst
      split at hst
      · rename_i hi
        split at hst
        · simp only [Option.some.injEq, Prod.mk.injEq, and_true] at hst h
          subst hst
          subst h
          simp only [TestState.measure, hi]
          omega
        · simp at hst
      · simp at hst
    · simp at h
  | done =>
    simp only [TestState.step, WorkerPool.step] at h
    split at h
    · rename_i wp' job hst
      split at hst <;> simp at hst
    · rename_i wp' hst
      split at hst
      · rename_i hi hs
        simp only [Option.some.injEq, Prod.mk.injEq, and_true] at hst h
        subst hst
        subst h
        simp only [TestState.measure, hi, hs]
        omega
      · simp at hst
    · simp at h
  | recv k =>
    simp only [TestState.step, WorkerPool.step] at h
    split at h
    · rename_i wp' job hst
      split at hst <;> simp at hst
    · rename_i wp' hst
      split at hst
      · rename_i job rest hk hb
        simp only [Option.some.injEq, Prod.mk.injEq, and_true] at hst h
        subst hst
        subst h
        have := measure_workers_set (.busy job) workerWeight hk
        simp only [TestState.measure, hb, List.length_cons]
        simp only [workerWeight] at this
        omega
      · simp at hst
    · simp at h
  | call k =>
    simp only [TestState.step, WorkerPool.step] at h
    split at h
    · rename_i wp' job hst
      split at hst
      · rename_i job' hk
        simp only [Option.some.injEq, Prod.mk.injEq] at hst h
        obtain ⟨hst1, hst2⟩ := hst
        subst hst1
        subst hst2
        subst h
        have := measure_workers_set .idle workerWeight hk
        simp only [TestState.measure]
        simp only [workerWeight] at this
        omega
      · simp at hst
    · rename_i wp' hst
      split at hst <;> simp at hst
    · simp at h
  | exit k =>
    simp only [TestState.step, WorkerPool.step] at h
    split at h
    · rename_i wp' job hst
      split at hst
      · split at hst <;> simp at hst
      · simp at hst
    · rename_i wp' hst
      split at hst
      · rename_i hk
        split at hst
        · simp only [Option.some.injEq, Prod.mk.injEq, and_true] at hst h
          subst hst
          subst h
          have := measure_workers_set .exited workerWeight hk
          simp only [TestState.measure]
          simp only [workerWeight] at this
          omega
        · simp at hst
      · simp at hst
    · simp at h

/-- Termination: every step of the test lowers `TestState.measure`. -/
theorem measure_step {s s' : TestState} (a : TestAction) (h : s.step a = some s') :
    s'.measure < s.measure := by
  cases a with
  | add =>
    simp only [TestState.step] at h
    split at h
    · rename_i job rest htodo
      split at h
      · rename_i wp' hadd
        simp only [Option.some.injEq] at h
        subst h
        obtain ⟨_, hcase⟩ := AddJob_returns hadd
        rcases hcase with ⟨hwp, _⟩ | ⟨k, hk, _, hwp⟩
        · subst hwp
          simp only [TestState.measure, htodo, List.length_cons, List.length_append,
            List.length_nil]
          omega
        · subst hwp
          have := measure_workers_set (.busy job) workerWeight hk
          simp only [TestState.measure, htodo, List.length_cons]
          simp only [workerWeight] at this
          omega
      · simp at h
    · simp at h
  | stop =>
    simp only [TestState.step] at h
    split at h
    · rename_i htodo hstop
      unfold WorkerPool.Stop at h
      split at h
      · simp at h
      · simp only [Option.map_some', Option.some.injEq] at h
        subst h
        simp only [TestState.measure, hstop]
        omega
    · simp at h
  | pool a => exact measure_pool a h

/-- From every state that satisfies the invariant, with at least one worker,
some schedule takes the test to the return of `Stop`. -/
theorem Inv_reaches_returned {jobs : List Nat} (n : Nat) :
    ∀ (s : TestState), s.measure ≤ n → s.Inv jobs → 1 ≤ s.wp.numWorkers →
      ∃ acts s', s.run acts = some s' ∧ s'.wp.stop = .returned := by
  induction n with
  | zero =>
    intro s hm hinv hW
    by_cases hret : s.wp.stop = .returned
    · exact ⟨[], s, rfl, hret⟩
    · obtain ⟨a, ha⟩ := Inv_progress hinv hW hret
      obtain ⟨s1, hs1⟩ := Option.isSome_iff_exists.mp ha
      have := measure_step a hs1
      omega
  | succ n ih =>
    intro s hm hinv hW
    by_cases hret : s.wp.stop = .returned
    · exact ⟨[], s, rfl, hret⟩
    · obtain ⟨a, ha⟩ := Inv_progress hinv hW hret
      obtain ⟨s1, hs1⟩ := Option.isSome_iff_exists.mp ha
      have hlt := measure_step a hs1
      obtain ⟨acts, s', hrun, hs'⟩ := ih s1 (by omega) (Inv_step a hinv hs1)
        (by rw [step_numWorkers hs1]; exact hW)
      exact ⟨a :: acts, s', by simp only [TestState.run, hs1]; exact hrun, hs'⟩

theorem pool_step_closed {wp wp' : WorkerPool} {a : Action} {o : Option Nat}
    (h : wp.step a = some (wp', o)) : wp'.jobChannel.closed = wp.jobChannel.closed := by
  cases a <;> simp only [WorkerPool.step] at h <;>
    (repeat' split at h) <;> simp at h <;> (try obtain ⟨h, _⟩ := h) <;> subst h <;> rfl

theorem pool_run_closed (acts : List Action) :
    ∀ {wp wp' : WorkerPool}, wp.run acts = some wp' →
      wp'.jobChannel.closed = wp.jobChannel.closed := by
  induction acts with
  | nil =>
    intro wp wp' h
    simp only [WorkerPool.run, Option.some.injEq] at h
    rw [h]
  | cons a as ih =>
    intro wp wp' h
    simp only [WorkerPool.run] at h
    split at h
    · rename_i wp1 o hs1
      rw [ih h, pool_step_closed hs1]
    · simp at h

/-- C7: adding the jobs and then calling `Stop` calls the handler on every job
exactly once before `Stop` returns. For every worker count of at least one,
every capacity of the channel and every list of jobs, in every state that a
schedule of the test reaches: if `Stop` has returned, the jobs on which the
handler has been called are the added jobs, each once; if it has not, some
goroutine can take a step; every step lowers the measure of the state, so that
no schedule runs forever; and some schedule leads on to the return of `Stop`. -/
theorem AddJobs_Stop_calls_handler_once_per_job (W : Int) (hW : 1 ≤ W) (cap : Nat)
    (jobs : List Nat) (acts : List TestAction) (s : TestState)
    (hrun : (TestState.init W cap jobs).run acts = some s) :
    (s.wp.stop = .returned → s.calls.Perm jobs ∧ s.calls.length = jobs.length) ∧
    (s.wp.stop ≠ .returned → ∃ a, (s.step a).isSome = true) ∧
    (∀ a s', s.step a = some s' → s'.measure < s.measure) ∧
    (∃ acts' s', s.run acts' = some s' ∧ s'.wp.stop = .returned) := by
  have hinv : s.Inv jobs := Inv_run acts (Inv_init W cap jobs) hrun
  have hW' : 1 ≤ s.wp.numWorkers := by
    rw [run_numWorkers acts hrun]
    exact hW
  refine ⟨fun hret => ?_, fun hret => Inv_progress hinv hW' hret,
    fun a s' h => measure_step a h, Inv_reaches_returned s.measure s le_rfl hinv hW'⟩
  have hp := Inv_returned hinv hW' hret
  exact ⟨hp, hp.length_eq⟩

/-- A schedule of two workers on a channel of capacity one and three jobs: the
second job is handled before the first, and `Stop` returns after all three. -/
theorem AddJobs_Stop_witness :
    List.Perm [8, 7, 9] [7, 8, 9] ∧ [8, 7, 9].length = [7, 8, 9].length :=
  (AddJobs_Stop_calls_handler_once_per_job 2 (by decide) 1 [7, 8, 9]
    [.pool .spawn, .add, .pool (.recv 0), .add, .pool .spawn, .pool (.recv 1), .add,
      .pool (.call 1), .pool (.call 0), .stop, .pool (.recv 0), .pool (.exit 1),
      .pool .endLoop, .pool (.call 0), .pool (.exit 0), .pool .wait, .pool .done]
    ⟨⟨⟨[], 1, true⟩, 2, .finished, 0, [.exited, .exited], .returned⟩, [], [8, 7, 9]⟩
    (by decide)).1 rfl

/-- With no worker the property fails: the jobs stay in the channel and `Stop`
returns without a call of the handler. -/
theorem AddJobs_Stop_without_workers :
    (TestState.init 0 2 [7, 8]).run [.add, .add, .stop, .pool .endLoop, .pool .wait,
      .pool .done] =
      some ⟨⟨⟨[7, 8], 2, true⟩, 0, .finished, 0, [], .returned⟩, [], []⟩ := by
  decide

/-- C8, as the code has it: after `Stop` has closed the channel, whatever steps
the goroutines of the pool take, a call of `AddJob` neither blocks nor puts the
job into the channel: the send on the closed channel panics. `AddJob` has no
result, so no error is returned. -/
theorem AddJob_after_Stop_panics (wp wp' wp'' : WorkerPool) (acts : List Action) (job : Nat)
    (hstop : wp.Stop = some wp') (hrun : wp'.run acts = some wp'') :
    wp''.AddJob job = .panics := by
  have hc : wp'.jobChannel.closed = true := by
    unfold WorkerPool.Stop at hstop
    split at hstop
    · simp at hstop
    · simp only [Option.some.injEq] at hstop
      subst hstop
      rfl
  have hc' : wp''.jobChannel.closed = true := by rw [pool_run_closed acts hrun, hc]
  unfold WorkerPool.AddJob
  rw [if_pos hc']

theorem AddJob_after_Stop_witness :
    ({ jobChannel := ⟨[], 1000, true⟩, numWorkers := 100, init := .loop 1, wg := 1,
       workers := [.idle], stop := .waiting } : WorkerPool).AddJob 1 = .panics :=
  AddJob_after_Stop_panics (NewWorkerPool 100 1000)
    { jobChannel := ⟨[], 1000, true⟩, numWorkers := 100, init := .loop 0, wg := 0,
      workers := [], stop := .waiting }
    { jobChannel := ⟨[], 1000, true⟩, numWorkers := 100, init := .loop 1, wg := 1,
      workers := [.idle], stop := .waiting }
    [.spawn] 1 (by decide) (by decide)

/-- C8 as stated fails: on a new pool of 100 workers and capacity 1000, `Stop`
and then `AddJob(1)`: the call panics; it does not return to its caller. -/
theorem AddJob_after_Stop_counterexample :
    ((NewWorkerPool 100 1000).Stop.map fun wp => wp.AddJob 1) = some .panics := by
  decide

end worker

namespace pwd

theorem Validate_eq_none_iff (s : Store) (clearText : GoString) :
    s.Validate clearText = none ↔ ((utf8.RuneCount clearText : Nat) : Int) ≤ s.maxPwdLength := by
  unfold Store.Validate
  simp only [gt_iff_lt]
  split
  · rename_i h
    constructor
    · intro h'; cases h'
    · intro h'; omega
  · rename_i h
    constructor
    · intro _; omega
    · intro _; rfl

end pwd

namespace strconv

end strconv

namespace strings

end strings

namespace base64

theorem encodeURL_ne_percent (v : Nat) : encodeURL v ≠ 37 := by
  unfold encodeURL
  split
  · omega
  · split
    · omega
    · split
      · omega
      · split <;> decide

/-- The characters that `EncodeToString` writes are letters, digits, `-`, `_`
and `=`: the character `%` is not among them. -/
theorem EncodeToString_no_percent (l : List Nat) : 37 ∉ EncodeToString l := by
  induction l using EncodeToString.induct with
  | case1 => simp [EncodeToString]
  | case2 a =>
    simp only [EncodeToString, List.mem_cons, List.mem_singleton, not_or, List.mem_nil_iff,
      not_false_eq_true, and_true]
    exact ⟨(encodeURL_ne_percent _).symm, (encodeURL_ne_percent _).symm, by decide, by decide⟩
  | case3 a b =>
    simp only [EncodeToString, List.mem_cons, List.mem_singleton, not_or, List.mem_nil_iff,
      not_false_eq_true, and_true]
    exact ⟨(encodeURL_ne_percent _).symm, (encodeURL_ne_percent _).symm,
      (encodeURL_ne_percent _).symm, by decide⟩
  | case4 a b c rest ih =>
    simp only [EncodeToString, List.mem_cons, not_or]
    exact ⟨(encodeURL_ne_percent _).symm, (encodeURL_ne_percent _).symm,
      (encodeURL_ne_percent _).symm, (encodeURL_ne_percent _).symm, ih⟩

end base64

namespace pwd

/-- A digest has no `%`: written by `fmt.Fprintf` as the format, it is written
as it is. -/
theorem Hash_no_percent (s : GoString) : 37 ∉ Hash s :=
  base64.EncodeToString_no_percent _

end pwd

namespace strconv

end strconv

namespace fmt

theorem Fprintf_of_no_percent (format : GoString) (h : 37 ∉ format) :
    Fprintf format = some format := by
  unfold Fprintf
  rw [if_neg h]

theorem Fprintf_Hash (s : GoString) : Fprintf (pwd.Hash s) = some (pwd.Hash s) :=
  Fprintf_of_no_percent _ (pwd.Hash_no_percent s)

end fmt

namespace main

open pwd strings strconv

theorem handler_rejected (s : server) (v : GoString) (rest : List GoString)
    (hv : s.pwdStore.Validate (TrimSpace v) ≠ none) :
    s.hashPasswordHandlerFunc (v :: rest) = .responded ⟨StatusBadRequest, some []⟩ s := by
  simp only [server.hashPasswordHandlerFunc]
  split
  · rfl
  · rename_i h
    exact absurd h hv

/-- C10: `getStatisticsHandlerFunc` reports the submission counter as `Total`,
and as `Average` the cumulative processing time divided by the counter, in the
integer division of `uint64`, when the counter is positive, and zero when the
counter is zero. -/
theorem stats_total_average (s : server) :
    s.getStatisticsHandlerFunc.Total = s.counter ∧
    (0 < s.counter → s.getStatisticsHandlerFunc.Average = s.processingTimeMicros / s.counter) ∧
    (s.counter = 0 → s.getStatisticsHandlerFunc.Average = 0) := by
  unfold server.getStatisticsHandlerFunc
  simp only [gt_iff_lt]
  refine ⟨?_, ?_, ?_⟩
  · split <;> rfl
  · intro h
    rw [if_pos h]
  · intro h
    rw [if_neg (by omega)]

/-- Three values of the statistics: no submission, an exact and a rounded mean. -/
theorem stats_examples :
    (newServer 100 1000 64).getStatisticsHandlerFunc = ⟨0, 0⟩ ∧
    ({ newServer 100 1000 64 with counter := 4, processingTimeMicros := 20 } :
      server).getStatisticsHandlerFunc = ⟨4, 5⟩ ∧
    ({ newServer 100 1000 64 with counter := 3, processingTimeMicros := 20 } :
      server).getStatisticsHandlerFunc = ⟨3, 6⟩ := by
  decide

open pwd strings strconv

/-- C5, as the code has it: the length that `hashPasswordHandlerFunc` checks is
that of the input without its leading and trailing white space. For every input
whose length in code points after `strings.TrimSpace` is greater than the
maximum, the handler answers `StatusBadRequest` and leaves the server as it
was: the counter, the store and the job channel are unchanged and no identifier
is taken, so the next accepted submission gets the identifier it would have
got. In a run, such a request changes only the processing time that
`trackDuration` adds. -/
theorem submit_too_long_is_rejected (s : server) (v : GoString) (rest : List GoString)
    (h : s.pwdStore.maxPwdLength < (utf8.RuneCount (TrimSpace v) : Nat)) :
    s.hashPasswordHandlerFunc (v :: rest) = .responded ⟨StatusBadRequest, some []⟩ s ∧
    ∀ (parked : List Nat) (micros : Nat),
      (⟨s, parked⟩ : RunState).step (.submit (v :: rest) micros) =
        some (⟨s.trackDuration micros, parked⟩, none) := by
  have hr : s.hashPasswordHandlerFunc (v :: rest) = .responded ⟨StatusBadRequest, some []⟩ s := by
    apply handler_rejected
    intro hv
    have := (Validate_eq_none_iff _ _).mp hv
    omega
  refine ⟨hr, fun parked micros => ?_⟩
  simp only [RunState.step, hr]
  simp [StatusBadRequest, StatusCreated]

/-- The test input of 66 characters on the server with the default settings. -/
theorem submit_too_long_witness :
    (newServer 100 1000 64).hashPasswordHandlerFunc [List.replicate 66 97] =
      .responded ⟨StatusBadRequest, some []⟩ (newServer 100 1000 64) :=
  (submit_too_long_is_rejected (newServer 100 1000 64) (List.replicate 66 97) []
    (by decide)).1

/-- C5 as stated fails: 64 letters and a space after them are 65 code points,
more than the maximum of 64, and the server with the default settings accepts
them: it answers `StatusCreated` with the identifier 1, the counter is 1, the
store holds the 64 letters and the job 1 is in the channel. -/
theorem submit_too_long_counterexample :
    utf8.RuneCount (List.replicate 64 97 ++ [32]) = 65 ∧
    (newServer 100 1000 64).hashPasswordHandlerFunc [List.replicate 64 97 ++ [32]] =
      .responded ⟨StatusCreated, some (goString "1")⟩
        { counter := 1,
          processingTimeMicros := 0,
          wp := { jobChannel := ⟨[1], 1000, false⟩, numWorkers := 100, init := .loop 0,
                  wg := 0, workers := [], stop := .notCalled },
          pwdStore := ⟨[(1, ⟨List.replicate 64 97, []⟩)], 64⟩ } := by
  decide

end main

namespace worker

end worker

namespace main

open pwd strings strconv worker

open pwd strings strconv worker

open pwd strings strconv worker

open pwd strings strconv worker

end main

namespace utf8

end utf8

namespace strings

open utf8

end strings

namespace utf8

end utf8

namespace strings

open utf8

end strings

namespace main

open pwd strings strconv worker

end main
